import Mathlib

/-!
A shallow embedding of the yakvdb B-tree storage engine (Rust), covering:

* `src/util/bsearch.rs` — the binary search used by page lookups;
* `src/disk/block.rs`   — the slotted page (`Block`), with the slot directory
  modelled as a list of entries carrying their payload offsets and owned
  key/value bytes (payload bytes are only ever read through live slots and
  writes never overlap live payload regions, so attributing the payload bytes
  to their slot is faithful to the byte-buffer layout);
* `src/disk/file.rs`    — the file engine (`DB`): disk pages, the LRU page
  cache of `src/util/cache.rs`, the dirty-id set, the free-id min-heap, and
  the tree algorithms `lookup`, `insert`, `remove`, `split`, `merge`, `check`,
  `flush`, `next_id`.

Byte strings are `List Nat`; Rust `&[u8]` comparison (`Ord` on slices) is the
lexicographic `byteCmp`. Iteration order of Rust's `HashSet`/`HashMap` is
unspecified; the model fixes insertion order (the only order-sensitive
consumers are flush write-back, where saves to distinct page ids commute, and
LRU tie-breaks, which cannot arise because recency counters are distinct).
Unbounded descent loops take explicit fuel (`none` = fuel exhausted or a Rust
`panic!`/`unwrap` failure); all other loops are structural.
-/

namespace Yak

/-- Lexicographic comparison of byte strings, as Rust's `Ord for &[u8]`
(element-wise, a strict prefix is smaller). -/
def byteCmp : List Nat → List Nat → Ordering
  | [], [] => .eq
  | [], _ :: _ => .lt
  | _ :: _, [] => .gt
  | a :: as, b :: bs =>
    match compare a b with
    | .eq => byteCmp as bs
    | .lt => .lt
    | .gt => .gt

/-- `a < b` on byte strings. -/
def keyLt (a b : List Nat) : Prop := byteCmp a b = .lt

/-- `a ≤ b` on byte strings. -/
def keyLe (a b : List Nat) : Prop := byteCmp a b ≠ .gt

instance (a b : List Nat) : Decidable (keyLt a b) := by unfold keyLt; infer_instance
instance (a b : List Nat) : Decidable (keyLe a b) := by unfold keyLe; infer_instance

/-! ### Binary search (`src/util/bsearch.rs`)

The Rust `bsearch` is a `while lo < hi` loop; each iteration strictly shrinks
`hi - lo`, so `hi - lo + 1` rounds of the structural `bsearchF` reproduce it
exactly. -/

/-- One-loop-per-fuel translation of the `bsearch` while-loop body. -/
def bsearchF (key : List Nat) (f : Nat → List Nat) : Nat → Nat → Nat → Nat
  | 0, lo, _ => lo
  | fuel + 1, lo, hi =>
    if lo < hi then
      let mid := lo + (hi - lo) / 2
      match byteCmp key (f mid) with
      | .lt => bsearchF key f fuel lo mid
      | .gt => bsearchF key f fuel (mid + 1) hi
      | .eq => mid
    else lo

/-- `bsearch(key, lo, hi, f)` from `src/util/bsearch.rs`. -/
def bsearch (key : List Nat) (lo hi : Nat) (f : Nat → List Nat) : Nat :=
  bsearchF key f (hi - lo + 1) lo hi

/-! ### The slotted page (`src/disk/block.rs`)

`HEAD = 16` header bytes (`id`, `capacity`, `slot_count`, magic), `SLOT = 16`
bytes per slot directory record. A directory record is modelled as an `Entry`
holding its payload `offset` together with the key/value bytes the offset
addresses and the child-page field. Slot records past `slot_count` are never
read by the Rust code before being rewritten, so the list holds exactly the
`slot_count` live records, in directory order. -/

def HEADB : Nat := 16
def SLOT : Nat := 16

structure Entry where
  offset : Nat
  key : List Nat
  val : List Nat
  page : Nat
deriving Repr, DecidableEq

structure Block where
  id : Nat
  cap : Nat
  entries : List Entry
deriving Repr, DecidableEq

/-- `Block::create(id, cap)`: header written, no slots. -/
def Block.create (id cap : Nat) : Block := ⟨id, cap, []⟩

/-- `Page::len` — the slot count. -/
def Block.len (b : Block) : Nat := b.entries.length

/-- `Page::slot(idx)`: `None` iff `idx ≥ len`. -/
def Block.slot (b : Block) (idx : Nat) : Option Entry := b.entries.get? idx

/-- `Page::key(idx)`; out-of-range reads give the empty slice (`unwrap_or_default`). -/
def Block.key (b : Block) (idx : Nat) : List Nat := ((b.slot idx).map Entry.key).getD []

/-- `Page::val(idx)`. -/
def Block.val (b : Block) (idx : Nat) : List Nat := ((b.slot idx).map Entry.val).getD []

/-- `Page::min`. (On an empty page the Rust read degrades to the empty slice.) -/
def Block.minKey (b : Block) : List Nat := b.key 0

/-- `Page::max` = `key(len - 1)`. On `len = 0` the Rust `u32` subtraction wraps
to a huge index and the read degrades to the empty slice, which `b.key 0` also
yields on the empty page, so `Nat` truncation agrees. -/
def Block.maxKey (b : Block) : List Nat := b.key (b.len - 1)

/-- Minimum of a list of `Nat` (`Iterator::min`). -/
def listMin : List Nat → Option Nat
  | [] => none
  | x :: xs =>
    some (match listMin xs with
      | none => x
      | some m => Nat.min x m)

/-- Total payload bytes of the given slots (`klen + vlen` summed). -/
def totalPayload (es : List Entry) : Nat := (es.map (fun e => e.key.length + e.val.length)).sum

/-- `Page::free`: distance between the end of the slot directory and the
lowest payload offset (capacity minus header when empty). The Rust code
asserts `lo ≤ hi`; `Nat` subtraction truncates at 0 where the assert would
fire. -/
def Block.free (b : Block) : Nat :=
  if b.len = 0 then b.cap - HEADB
  else
    let lo := HEADB + b.len * SLOT
    let hi := (listMin (b.entries.map Entry.offset)).getD lo
    hi - lo

/-- `Page::full`: integer fullness percent. -/
def Block.full (b : Block) : Nat :=
  let len := b.cap - HEADB
  (len - b.free) * 100 / len

/-- `Page::fits(len)`: `free() ≥ len + SLOT`. -/
def Block.fits (b : Block) (len : Nat) : Bool := decide (len + SLOT ≤ b.free)

/-- `Page::find(key)`: binary search, `Some` only on exact key match. -/
def Block.find (b : Block) (key : List Nat) : Option Nat :=
  let n := b.len
  if n = 0 then none
  else
    let k := bsearch key 0 (n - 1) (fun i => b.key i)
    if b.key k = key then some k else none

/-- `Page::ceil(key)`: binary search, `Some k` iff the probe at the landing
index is `≥ key`. -/
def Block.ceil (b : Block) (key : List Nat) : Option Nat :=
  let n := b.len
  if n = 0 then none
  else
    let k := bsearch key 0 (n - 1) (fun i => b.key i)
    if keyLe key (b.key k) then some k else none

/-- Reassign offsets packing payloads upward from `offset` in slot order —
the compaction loop of `Block::remove`. -/
def compactFrom (offset : Nat) : List Entry → List Entry
  | [] => []
  | e :: rest =>
    { e with offset := offset } :: compactFrom (offset + e.key.length + e.val.length) rest

/-- `Block::remove(idx)`: drop slot `idx`, then compact all remaining payloads
to the top of the page and rewrite the directory in order. No-op when
`idx ≥ slot_count`. -/
def Block.remove (b : Block) (idx : Nat) : Block :=
  if idx ≥ b.len then b
  else
    let slots := b.entries.eraseIdx idx
    { b with entries := compactFrom (b.cap - totalPayload slots) slots }

/-- `Block::put_entry(key, val, page)`. Checks `fits` on the page as-is; on an
exact key match at `ceil`, first decrements the slot count (`put_size(n-1)`,
modelled by `dropLast`) and then calls `remove` on the shortened directory;
finally inserts the new slot at the `ceil` position (or at the end) with its
payload placed just below the lowest existing offset. Returns `none` exactly
when `fits` fails, leaving the page unchanged at every call site. -/
def Block.put_entry (b : Block) (key val : List Nat) (page : Nat) : Option (Nat × Block) :=
  if ¬ b.fits (key.length + val.length) then none
  else
    let b1 :=
      match b.ceil key with
      | some idx =>
        if b.key idx = key then
          Block.remove { b with entries := b.entries.dropLast } idx
        else b
      | none => b
    let size := b1.len
    let idx := (b1.ceil key).getD size
    let endOff := (listMin (b1.entries.map Entry.offset)).getD b1.cap
    let offset := endOff - key.length - val.length
    some (idx, { b1 with entries := b1.entries.insertIdx idx ⟨offset, key, val, page⟩ })

/-- `Page::put_val`. -/
def Block.put_val (b : Block) (key val : List Nat) : Option (Nat × Block) :=
  b.put_entry key val 0

/-- `Page::put_ref`. -/
def Block.put_ref (b : Block) (key : List Nat) (page : Nat) : Option (Nat × Block) :=
  b.put_entry key [] page

/-- `put_val` at call sites that discard the returned index: the page is
unchanged when the entry does not fit. -/
def Block.put_valB (b : Block) (key val : List Nat) : Block :=
  ((b.put_val key val).map Prod.snd).getD b

/-- `put_ref` at call sites that discard the returned index. -/
def Block.put_refB (b : Block) (key : List Nat) (page : Nat) : Block :=
  ((b.put_ref key page).map Prod.snd).getD b

/-- `Page::copy`: owned `(key, value, child)` triples in slot order. -/
def Block.copy (b : Block) : List (List Nat × List Nat × Nat) :=
  b.entries.map (fun e => (e.key, e.val, e.page))

/-- `Page::clear`: keep the header, drop all slots. -/
def Block.clear (b : Block) : Block := { b with entries := [] }

/-! ### The LRU page cache (`src/util/cache.rs`)

`HashMap` iteration order is unspecified in Rust; the association lists fix
insertion order. The only iteration-order-sensitive spot is the eviction
tie-break, and recency counters are strictly increasing, so the minimum is
unique and the order immaterial. -/

structure LruCache where
  map : List (Nat × Block)
  lru : List (Nat × Nat)
  locks : List Nat
  cap : Nat
  op : Nat
deriving Repr, DecidableEq

def assocPut {β : Type} : List (Nat × β) → Nat → β → List (Nat × β)
  | [], k, v => [(k, v)]
  | (a, b) :: t, k, v => if a = k then (k, v) :: t else (a, b) :: assocPut t k v

def assocDel {β : Type} : List (Nat × β) → Nat → List (Nat × β)
  | [], _ => []
  | (a, b) :: t, k => if a = k then t else (a, b) :: assocDel t k

def LruCache.new (size : Nat) : LruCache := ⟨[], [], [], size, 0⟩

def LruCache.has (c : LruCache) (id : Nat) : Bool := (c.map.lookup id).isSome

/-- `LruCache::lru`: no victim while below capacity; otherwise the unlocked
entry with the least recency counter (`min_by_key` keeps the last minimum). -/
def LruCache.lruVictim (c : LruCache) : Option Nat :=
  if c.map.length < c.cap then none
  else
    ((c.lru.filter (fun p => ¬ c.locks.contains p.1)).foldl
      (fun acc p =>
        match acc with
        | none => some p
        | some q => if p.2 ≤ q.2 then some p else some q) none).map Prod.fst

def LruCache.evict (c : LruCache) : LruCache :=
  match c.lruVictim with
  | none => c
  | some k => { c with map := assocDel c.map k, lru := assocDel c.lru k }

/-- `Cache::get` (and `get_mut`): record the access, return the page. -/
def LruCache.get (c : LruCache) (id : Nat) : Option Block × LruCache :=
  if ¬ c.has id then (none, c)
  else
    let op := c.op + 1
    let c1 := { c with op := op, lru := assocPut c.lru id op }
    (c1.map.lookup id, c1)

/-- `Cache::put`: evict first when at capacity, then insert with fresh recency. -/
def LruCache.put (c : LruCache) (id : Nat) (p : Block) : LruCache :=
  let c1 := c.evict
  let op := c1.op + 1
  { c1 with op := op, lru := assocPut c1.lru id op, map := assocPut c1.map id p }

/-! ### The file engine (`src/disk/file.rs`)

`filePages` is the backing file: the page with id `i` lives at list index
`i - 1` (file offset `HEAD + (i-1)·page_bytes`). `dirty` is the dirty-id set
(insertion order), `empty` the free-id min-heap (as a multiset). -/

def ROOT : Nat := 1
def SPLIT_THRESHOLD : Nat := 80
def MERGE_THRESHOLD : Nat := 20

inductive DbError where
  | io : DbError
  | tree : Nat → String → DbError
  | other : String → DbError
deriving Repr, DecidableEq

instance {α β : Type} [DecidableEq α] [DecidableEq β] : DecidableEq (Except α β) := fun a b =>
  match a, b with
  | .ok x, .ok y =>
    if h : x = y then .isTrue (by rw [h]) else .isFalse (by intro hh; cases hh; exact h rfl)
  | .ok _, .error _ => .isFalse (by intro hh; cases hh)
  | .error _, .ok _ => .isFalse (by intro hh; cases hh)
  | .error x, .error y =>
    if h : x = y then .isTrue (by rw [h]) else .isFalse (by intro hh; cases hh; exact h rfl)

structure DB where
  pageBytes : Nat
  filePages : List Block
  cache : LruCache
  dirty : List Nat
  empty : List Nat
deriving Repr, DecidableEq

/-- `File::make`: header plus an empty root page on disk; empty cache, dirty
set and free heap. -/
def DB.make (pageBytes : Nat) : DB :=
  ⟨pageBytes, [Block.create ROOT pageBytes], LruCache.new 32, [], []⟩

/-- `File::load` at `offset(id)`: fails (IO error) when the read is outside
the file; `id = 0` seeks at a wrapped-around offset and fails likewise. -/
def DB.load (db : DB) (id : Nat) : Option Block :=
  if id = 0 then none else db.filePages.get? (id - 1)

/-- A page's worth of zero bytes (what a seek-past-EOF gap materializes as). -/
def zeroBlock : Block := ⟨0, 0, []⟩

/-- `File::save`: write the page buffer at `offset(page.id())`, extending the
file through a zero gap if the offset is past EOF. -/
def DB.save (db : DB) (p : Block) : DB :=
  let idx := p.id - 1
  let f := if idx < db.filePages.length then db.filePages
           else db.filePages ++ List.replicate (idx + 1 - db.filePages.length) zeroBlock
  { db with filePages := f.set idx p }

/-- `HashSet::insert` under insertion-order iteration. -/
def insertSet (s : List Nat) (x : Nat) : List Nat := if s.contains x then s else s ++ [x]

/-- `Tree::mark`: add to the dirty set. -/
def DB.mark (db : DB) (id : Nat) : DB := { db with dirty := insertSet db.dirty id }

/-- `Tree::cache`: ensure the page is resident, loading it from disk if absent. -/
def DB.cachePage (db : DB) (id : Nat) : Option DB :=
  if db.cache.has id then some db
  else
    match db.load id with
    | none => none
    | some p => some { db with cache := db.cache.put id p }

/-- `Tree::page`: resident page by id (read borrow; records recency). -/
def DB.page (db : DB) (id : Nat) : Option (Block × DB) :=
  match db.cachePage id with
  | none => none
  | some db1 =>
    match db1.cache.get id with
    | (some p, c) => some (p, { db1 with cache := c })
    | (none, _) => none

/-- `Tree::page_mut`: like `page` but marks the id dirty first. -/
def DB.pageMut (db : DB) (id : Nat) : Option (Block × DB) :=
  match db.cachePage id with
  | none => none
  | some db1 =>
    let db2 := db1.mark id
    match db2.cache.get id with
    | (some p, c) => some (p, { db2 with cache := c })
    | (none, _) => none

/-- Writing through a held mutable page borrow: replace the cached buffer. -/
def DB.setPage (db : DB) (id : Nat) (p : Block) : DB :=
  { db with cache := { db.cache with map := assocPut db.cache.map id p } }

/-- The page content a held borrow of `id` currently sees. -/
def DB.cacheContent (db : DB) (id : Nat) : Option Block := db.cache.map.lookup id

/-- The write-back loop of `Tree::flush`. -/
def DB.flushGo : DB → List Nat → List Nat → DB × List Nat
  | db, [], failed => (db, failed)
  | db, id :: rest, failed =>
    match db.page id with
    | some (p, db1) => DB.flushGo (db1.save p) rest failed
    | none => DB.flushGo db rest (failed ++ [id])

/-- `Tree::flush`: snapshot and clear the dirty set, then write each formerly
dirty page back to disk; ids whose page cannot be produced are reported. -/
def DB.flush (db : DB) : Except DbError Unit × DB :=
  let pages := db.dirty
  let db1 := { db with dirty := [] }
  let (db2, failed) := DB.flushGo db1 pages []
  if failed.isEmpty then (.ok (), db2)
  else (.error (.other "Missing pages"), db2)

/-- `BinaryHeap<Reverse<u32>>::pop`: remove and return the minimum. -/
def popMin (l : List Nat) : Option (Nat × List Nat) :=
  match listMin l with
  | none => none
  | some m => some (m, l.erase m)

/-- `Tree::next_id`: reuse the smallest free id (resetting its buffer to a
fresh empty page in the cache), or extend the file by one fresh empty page. -/
def DB.next_id (db : DB) : Option (Nat × DB) :=
  if db.empty.isEmpty then
    let id := db.filePages.length + 1
    let page := Block.create id db.pageBytes
    some (id, { db with filePages := db.filePages ++ [page] })
  else
    match popMin db.empty with
    | none => none
    | some (id, rest) =>
      let db1 := { db with empty := rest }
      let temp := Block.create id db1.pageBytes
      match db1.pageMut id with
      | none => none
      | some (_, db2) => some (id, db2.setPage id temp)

/-- `Tree::free_id`: push onto the free heap. -/
def DB.free_id (db : DB) (id : Nat) : DB := { db with empty := id :: db.empty }

/-- Insert a copied entry list into a page, dispatching on the child field —
the move loops of `split` and `merge` (returned slot indices are discarded). -/
def fillEntries : Block → List (List Nat × List Nat × Nat) → Block
  | b, [] => b
  | b, (k, v, p) :: rest => fillEntries (if p = 0 then b.put_valB k v else b.put_refB k p) rest

/-- The removal loop of the non-root `split`: `find` each moved key (a failed
`find` is an `unwrap` panic) and `remove` its slot. -/
def removeKeysOpt : Block → List (List Nat × List Nat × Nat) → Option Block
  | b, [] => some b
  | b, (k, _, _) :: rest =>
    match b.find k with
    | none => none
    | some idx => removeKeysOpt (b.remove idx) rest

/-- `Tree::check(parent_id, page_id)`: the child's max key must be found in
the parent, with matching key bytes and child pointer. -/
def DB.check (db : DB) (parent_id page_id : Nat) : Option (Except DbError Unit × DB) :=
  match db.page page_id with
  | none => none
  | some (page, db1) =>
    let page_max := page.maxKey
    match db1.page parent_id with
    | none => none
    | some (par, db2) =>
      match par.find page_max with
      | none => none
      | some idx =>
        let parent_key := par.key idx
        let parent_ref := ((par.slot idx).map Entry.page).getD 0
        if parent_key ≠ page_max then
          some (.error (.tree parent_id "Parent entry key does not match child page"), db2)
        else if parent_ref ≠ page_id then
          some (.error (.tree parent_id "Parent entry ref does not match child page"), db2)
        else some (.ok (), db2)

/-- `Tree::merge(src, dst)`: move all of `src`'s entries into `dst`, clear
`src` and return its id to the free heap. -/
def DB.merge (db : DB) (src_id dst_id : Nat) : Option (Except DbError Unit × DB) :=
  match db.page src_id with
  | none => none
  | some (src, db1) =>
    let src_copy := src.copy
    match db1.pageMut dst_id with
    | none => none
    | some (dst, db2) =>
      let db3 := (db2.setPage dst_id (fillEntries dst src_copy))
      match db3.pageMut src_id with
      | none => none
      | some (s, db4) =>
        let db5 := db4.setPage src_id s.clear
        some (.ok (), db5.free_id src_id)

/-- `Tree::split(id, parent_id)`. Root case: allocate `lo` and `hi`, move the
first `⌊n/2⌋` entries to `lo` and the rest to `hi`, reset the root to the two
separators. Non-root case: allocate a peer, move the upper half across,
replace the parent's separator for `id` by two separators, then `check` both
children. `none` models the `unwrap` panics (including `copy.get(half - 1)`
underflowing when the page has fewer than two entries). -/
def DB.split (db : DB) (id parent_id : Nat) : Option (Except DbError Unit × DB) :=
  if id = ROOT then
    match db.next_id with
    | none => none
    | some (lo_id, dbA) =>
      match dbA.next_id with
      | none => none
      | some (hi_id, dbB) =>
        match dbB.page id with
        | none => none
        | some (page, db1) =>
          let copy := page.copy
          let half := page.len / 2
          if half = 0 then none
          else
            match copy.get? (half - 1), copy.getLast? with
            | some lo_e, some hi_e =>
              let lo_max := lo_e.1
              let hi_max := hi_e.1
              match db1.pageMut lo_id with
              | none => none
              | some (lo, db2) =>
                let db3 := db2.setPage lo_id (fillEntries lo (copy.take half))
                match db3.pageMut hi_id with
                | none => none
                | some (hi, db4) =>
                  let db5 := db4.setPage hi_id (fillEntries hi (copy.drop half))
                  match db5.pageMut id with
                  | none => none
                  | some (root, db6) =>
                    let root1 := ((root.clear).put_refB lo_max lo_id).put_refB hi_max hi_id
                    some (.ok (), db6.setPage id root1)
            | _, _ => none
  else
    match db.page id with
    | none => none
    | some (page, db0) =>
      let copy := page.copy
      let max := page.maxKey
      let half := copy.length / 2
      match db0.next_id with
      | none => none
      | some (peer_id, db1) =>
        match db1.pageMut id with
        | none => none
        | some (p, db2) =>
          match removeKeysOpt p (copy.drop half) with
          | none => none
          | some p1 =>
            let page_max := p1.maxKey
            let db3 := db2.setPage id p1
            match db3.pageMut peer_id with
            | none => none
            | some (peer, db4) =>
              let peer1 := fillEntries peer (copy.drop half)
              let peer_max := peer1.maxKey
              let db5 := db4.setPage peer_id peer1
              match db5.pageMut parent_id with
              | none => none
              | some (par, db6) =>
                match par.find max with
                | none => none
                | some idx =>
                  let par1 := ((par.remove idx).put_refB page_max id).put_refB peer_max peer_id
                  let db7 := db6.setPage parent_id par1
                  match db7.check parent_id id with
                  | none => none
                  | some (.error e, db8) => some (.error e, db8)
                  | some (.ok _, db8) =>
                    match db8.check parent_id peer_id with
                    | none => none
                    | some (.error e, db9) => some (.error e, db9)
                    | some (.ok _, db9) => some (.ok (), db9)

/-! ### Store operations (`impl Store for File` in `src/disk/file.rs`)

The unbounded descent loops take fuel; `none` is fuel exhaustion or a Rust
panic, every Rust `return` is a `some`. -/

/-- The descent loop of `Store::lookup`. Note the order at a descent step:
the cycle check against `seen` happens before the current page's id is
inserted. -/
def DB.lookupGo (db : DB) (page : Block) (key : List Nat) (seen : List Nat) :
    Nat → Option (Except DbError (Option (List Nat)) × DB)
  | 0 => none
  | fuel + 1 =>
    match page.ceil key with
    | none => some (.ok none, db)
    | some idx =>
      match page.slot idx with
      | none => some (.error (.tree page.id "Slot not found"), db)
      | some slot =>
        if slot.page = 0 then
          if key = page.key idx then some (.ok (some (page.val idx)), db)
          else some (.ok none, db)
        else
          let id := page.id
          if seen.contains slot.page then
            some (.error (.tree id "Cyclic reference detected"), db)
          else
            let seen1 := insertSet seen id
            match db.page slot.page with
            | none => some (.error (.tree id "Page not found"), db)
            | some (next, db1) => db1.lookupGo next key seen1 fuel

/-- `Store::lookup`: descend from the root. -/
def DB.lookup (db : DB) (key : List Nat) (fuel : Nat) :
    Option (Except DbError (Option (List Nat)) × DB) :=
  match db.page ROOT with
  | none => none
  | some (root, db1) => db1.lookupGo root key [] fuel

/-- Result projection of `lookup` (the returned value, sans threaded state). -/
def DB.lookupRes (db : DB) (key : List Nat) (fuel : Nat) :
    Option (Except DbError (Option (List Nat))) :=
  (db.lookup key fuel).map Prod.fst

/-- The post-insert ascent of `Store::insert`: pop the path, splitting every
ancestor whose fullness exceeds the split threshold. -/
def DB.splitAscend : DB → List (Nat × Nat) → Option (Except DbError Unit × DB)
  | db, [] => some (.ok (), db)
  | db, (page_id, _) :: rest =>
    let parent_id := ((rest.head?).map Prod.fst).getD 0
    match db.page page_id with
    | none => none
    | some (p, db1) =>
      if p.full > SPLIT_THRESHOLD then
        match db1.split page_id parent_id with
        | none => none
        | some (.error e, db2) => some (.error e, db2)
        | some (.ok _, db2) => DB.splitAscend db2 rest
      else DB.splitAscend db1 rest

/-- The descent loop of `Store::insert`. The path stack is kept most-recent
first (`path.head?` is Rust's `path.last()`). Before descending (and before
upserting at a leaf), when the new key exceeds the remembered parent
separator, that separator is replaced by the new key — ignoring the result of
the `put_ref`, which silently drops the separator when it does not fit. -/
def DB.insertGo (db : DB) (pid : Nat) (key val : List Nat) (path : List (Nat × Nat))
    (seen : List Nat) : Nat → Option (Except DbError Unit × DB)
  | 0 => none
  | fuel + 1 =>
    match db.cacheContent pid with
    | none => none
    | some page =>
      let id := page.id
      let parent_id := ((path.head?).map Prod.fst).getD 0
      if page.len = 0 then
        if ¬ page.fits (key.length + val.length) then
          some (.error (.tree page.id "Entry does not fit into the page"), db)
        else
          some (.ok (), db.setPage pid (page.put_valB key val))
      else
        let idx := (page.ceil key).getD (page.len - 1)
        let rewritten : Option DB :=
          match path.head? with
          | some (par, par_idx) =>
            match db.pageMut par with
            | none => none
            | some (pp, db1) =>
              let parent_key := pp.key par_idx
              if byteCmp key parent_key = .gt then
                some (db1.setPage par (((pp.remove par_idx).put_refB key id)))
              else some db1
          | none => some db
        match rewritten with
        | none => none
        | some db2 =>
          match db2.pageMut pid with
          | none => none
          | some (page2, db3) =>
            match page2.slot idx with
            | none => some (.error (.tree page2.id "Slot not found"), db3)
            | some slot =>
              if slot.page = 0 then
                if ¬ page2.fits (key.length + val.length) then
                  some (.error (.tree page2.id "Entry does not fit into the page"), db3)
                else
                  let page3 := page2.put_valB key val
                  let full := page3.full
                  let db4 := db3.setPage pid page3
                  let afterSplit : Option (Except DbError Unit × DB) :=
                    if full > SPLIT_THRESHOLD then db4.split id parent_id
                    else some (.ok (), db4)
                  match afterSplit with
                  | none => none
                  | some (.error e, db5) => some (.error e, db5)
                  | some (.ok _, db5) =>
                    match db5.splitAscend path with
                    | none => none
                    | some (.error e, db6) => some (.error e, db6)
                    | some (.ok _, db6) =>
                      let (r, db7) := db6.flush
                      match r with
                      | .ok _ => some (.ok (), db7)
                      | .error e => some (.error e, db7)
              else
                let path1 := (id, idx) :: path
                let seen1 := insertSet seen id
                if seen1.contains slot.page then
                  some (.error (.tree id "Cyclic reference detected"), db3)
                else
                  match db3.pageMut slot.page with
                  | none => some (.error (.tree slot.page "Page not found"), db3)
                  | some (_, db4) => db4.insertGo slot.page key val path1 seen1 fuel

/-- `Store::insert`: acquire the root mutably (marking it dirty), descend. -/
def DB.insert (db : DB) (key val : List Nat) (fuel : Nat) :
    Option (Except DbError Unit × DB) :=
  match (db.mark ROOT).pageMut ROOT with
  | none => none
  | some (_, db1) => db1.insertGo ROOT key val [] [] fuel

/-- The sibling scan of the merge step: keep non-empty peers below the merge
threshold, with their fullness. -/
def DB.peerScan : DB → List Nat → List (Nat × Nat) → Option (List (Nat × Nat) × DB)
  | db, [], acc => some (acc, db)
  | db, pid :: rest, acc =>
    match db.page pid with
    | none => none
    | some (peer, db1) =>
      let full := peer.full
      if peer.len > 0 ∧ full < MERGE_THRESHOLD then
        DB.peerScan db1 rest (acc ++ [(pid, full)])
      else DB.peerScan db1 rest acc

/-- `min_by_key` on (peer, fullness) pairs (last minimum on ties). -/
def minByFull (l : List (Nat × Nat)) : Option Nat :=
  (l.foldl
    (fun acc p =>
      match acc with
      | none => some p
      | some q => if p.2 ≤ q.2 then some p else some q) none).map Prod.fst

/-- The up-tree walk of `Store::remove`: possibly merge with the least-full
adjacent sibling under the merge threshold, then rewrite (or drop) the
parent's separator for the shrunken child. -/
def DB.removeAscend : DB → Nat → List (Nat × Nat) → Option (Except DbError Unit × DB)
  | db, _, [] => some (.ok (), db)
  | db, page_id, (parent_id, idx) :: rest =>
    match db.page page_id with
    | none => none
    | some (pg, dbA) =>
      let full := pg.full
      let merged : Option (Nat × Nat × DB) :=
        -- (page_id, idx, state) after the optional merge step
        if full < MERGE_THRESHOLD then
          match dbA.page parent_id with
          | none => none
          | some (parent, dbB) =>
            let peersLeft : Option (List Nat) :=
              if idx > 0 then
                match parent.slot (idx - 1) with
                | none => none
                | some s => some [s.page]
              else some []
            let peersRight : Option (List Nat) :=
              if idx < parent.len - 1 then
                match parent.slot (idx + 1) with
                | none => none
                | some s => some [s.page]
              else some []
            match peersLeft, peersRight with
            | some pl, some pr =>
              match DB.peerScan dbB (pl ++ pr) [] with
              | none => none
              | some (cands, dbC) =>
                match minByFull cands with
                | none => some (page_id, idx, dbC)
                | some peer_id =>
                  match dbC.page peer_id with
                  | none => none
                  | some (peer, dbD) =>
                    let peer_max := peer.maxKey
                    match dbD.pageMut parent_id with
                    | none => none
                    | some (par, dbE) =>
                      let par1 := par.remove idx
                      match par1.ceil peer_max with
                      | none => none
                      | some peer_idx =>
                        let par2 := par1.remove peer_idx
                        let dbF := dbE.setPage parent_id par2
                        match dbF.merge page_id peer_id with
                        | none => none
                        | some (.error _, _) => none
                        | some (.ok _, dbG) =>
                          match dbG.page peer_id with
                          | none => none
                          | some (pm, dbH) =>
                            let page_max := pm.maxKey
                            match dbH.pageMut parent_id with
                            | none => none
                            | some (par3, dbI) =>
                              let par4 := par3.put_refB page_max peer_id
                              let dbJ := dbI.setPage parent_id par4
                              match par4.ceil page_max with
                              | none => none
                              | some idx2 => some (peer_id, idx2, dbJ)
            | _, _ => none
        else some (page_id, idx, dbA)
      match merged with
      | none => none
      | some (pid2, idx2, db2) =>
        match db2.page pid2 with
        | none => none
        | some (child, db3) =>
          let max_opt : Option (List Nat) :=
            if child.len > 0 then some child.maxKey else none
          match db3.pageMut parent_id with
          | none => none
          | some (par, db4) =>
            let par5 :=
              match max_opt with
              | some mx =>
                if byteCmp mx (par.key idx2) = .lt then
                  (par.remove idx2).put_refB mx pid2
                else par
              | none => par.remove idx2
            let db5 := db4.setPage parent_id par5
            DB.removeAscend db5 parent_id rest

/-- The descent loop of `Store::remove`. A failed `ceil` returns `Ok(())`
without flushing; at a leaf the slot at the `ceil` index is removed without
comparing its key to the probe. -/
def DB.removeGo (db : DB) (pid : Nat) (key : List Nat) (path : List (Nat × Nat))
    (seen : List Nat) : Nat → Option (Except DbError Unit × DB)
  | 0 => none
  | fuel + 1 =>
    match db.cacheContent pid with
    | none => none
    | some page =>
      match page.ceil key with
      | none => some (.ok (), db)
      | some idx =>
        match page.slot idx with
        | none => some (.error (.tree page.id "Slot not found"), db)
        | some slot =>
          let id := page.id
          if slot.page = 0 then
            let db1 := db.setPage pid (page.remove idx)
            match db1.removeAscend id path with
            | none => none
            | some (.error e, db2) => some (.error e, db2)
            | some (.ok _, db2) =>
              let (r, db3) := db2.flush
              match r with
              | .ok _ => some (.ok (), db3)
              | .error e => some (.error e, db3)
          else
            let path1 := (id, idx) :: path
            let seen1 := insertSet seen id
            if seen1.contains slot.page then
              some (.error (.tree id "Cyclic reference detected"), db)
            else
              match db.pageMut slot.page with
              | none => some (.error (.tree id "Page not found"), db)
              | some (_, db2) => db2.removeGo slot.page key path1 seen1 fuel

/-- `Store::remove`: acquire the root mutably (marking it dirty), descend. -/
def DB.remove (db : DB) (key : List Nat) (fuel : Nat) :
    Option (Except DbError Unit × DB) :=
  match (db.mark ROOT).pageMut ROOT with
  | none => none
  | some (_, db1) => db1.removeGo ROOT key [] [] fuel


/-! ### Views, invariant checkers and concrete runs -/

/-- The store's current content for a page id: the cached buffer when
resident, else the on-disk page (what a fresh borrow of `id` would observe). -/
def DB.viewPage (db : DB) (id : Nat) : Option Block :=
  match db.cacheContent id with
  | some b => some b
  | none => db.load id

/-- The *separator = child max* invariant over the store's in-memory state:
every internal slot `(k, child)` of every page satisfies `k = child.max()`. -/
def DB.sepInvariant (db : DB) : Bool :=
  (List.range db.filePages.length).all (fun i =>
    match db.viewPage (i + 1) with
    | none => true
    | some b => b.entries.all (fun e =>
        if e.page = 0 then true
        else match db.viewPage e.page with
          | none => false
          | some c => c.maxKey == e.key))

/-- Run one `insert` (fuel 32) and keep the state only on `Ok`. -/
def insOk (db : Option DB) (k v : List Nat) : Option DB :=
  match db with
  | none => none
  | some d =>
    match d.insert k v 32 with
    | some (.ok _, d') => some d'
    | _ => none

/-- Run one `remove` (fuel 32) and keep the state only on `Ok`. -/
def remOk (db : Option DB) (k : List Nat) : Option DB :=
  match db with
  | none => none
  | some d =>
    match d.remove k 32 with
    | some (.ok _, d') => some d'
    | _ => none

/-- Run a `lookup` (fuel 32) on an optional state. -/
def lookOpt (db : Option DB) (k : List Nat) : Option (Except DbError (Option (List Nat))) :=
  match db with
  | none => none
  | some d => d.lookupRes k 32

/-- The forced-split scenario of the repository's `test_split`: 25 distinct
8-byte keys (`aaaaaaaa` … `yyyyyyyy`), each mapped to itself, page size 256.
After these inserts the root holds 8 separators and is 80% full. -/
def data25 : List (List Nat × List Nat) :=
  (List.range 25).map (fun i =>
    (List.replicate 8 (97 + i % 26), List.replicate 8 (97 + i % 26)))

/-- The store after the 25 distinct inserts of `data25`. -/
def db25 : Option DB := data25.foldl (fun d kv => insOk d kv.1 kv.2) (some (DB.make 256))

/-- `db25` after one more successful insert that upserts the existing
non-maximal leaf key `aaaaaaaa`. -/
def dbUpsert : Option DB := insOk db25 (List.replicate 8 97) (List.replicate 8 120)

/-- `db25` after removing `yyyyyyyy` (leaving the rightmost leaf with three
entries and the root with 8 short separators and 48 free bytes). -/
def dbShrunk : Option DB := remOk db25 (List.replicate 8 121)

/-- A 57-byte key larger than every stored key: rewriting the root's
rightmost separator to it needs `57 + 16 > 48 + 8 + 16` free bytes, so the
`put_ref` of the separator rewrite fails silently. -/
def zKey : List Nat := List.replicate 57 122

def zVal : List Nat := List.replicate 8 122

/-- `dbShrunk` after the (successful!) insert of `zKey`. -/
def dbZ : Option DB := insOk dbShrunk zKey zVal

/-- A fresh store with the single entry `[98] → [49]`. -/
def dbB : Option DB := insOk (some (DB.make 256)) [98] [49]

/-- `dbB` after removing the *absent* key `[97]`. -/
def dbBRemA : Option DB := remOk dbB [97]

/-- A fresh store after its very first insert (`[107] → [118]`). -/
def dbFirst : Option DB := insOk (some (DB.make 256)) [107] [118]

/-- A page holding `[97] → [49,49]` and `[98] → [50,50]`. -/
def pagePre : Block :=
  ((Block.create 42 128).put_valB [97] [49, 49]).put_valB [98] [50, 50]

/-- `pagePre` after upserting the non-maximal key `[97]`. -/
def pageUps : Block := pagePre.put_valB [97] [88, 89]

/-- A page with 4 free bytes holding `[107] → 50 bytes` and `[109] → 24
bytes`: replacing the 50-byte value of `[107]` does not fit before the old
entry is removed but would fit after. -/
def pageTight : Block :=
  ((Block.create 42 128).put_valB [107] (List.replicate 50 65)).put_valB
    [109] (List.replicate 24 66)

/-- A page built by `put b; put a; put b` (the second `put b` upserts the
maximal key): the stale payload of the replaced entry is never compacted. -/
def pageLeak : Block :=
  (((Block.create 7 128).put_valB [98] [1, 2]).put_valB [97] [3]).put_valB [98] [4, 5]

/-- Executable check that the slot directory is strictly sorted by key
(`key(i) < key(j)` for all `i < j < slot_count`). -/
def sortedKeysB (b : Block) : Bool :=
  (List.range b.len).all (fun j => (List.range j).all (fun i => decide (keyLt (b.key i) (b.key j))))

/-- A small strictly-sorted two-entry page (keys `[2]` and `[4]`). -/
def pageSorted : Block := ⟨1, 64, [⟨61, [2], [5], 0⟩, ⟨59, [4], [6], 0⟩]⟩

/-- One operation of the page mutation API. -/
inductive PageOp where
  | putv : List Nat → List Nat → PageOp
  | putr : List Nat → Nat → PageOp
  | rem : Nat → PageOp
deriving Repr, DecidableEq

/-- Apply one page operation (put results discarded, as at the call sites). -/
def applyOp (b : Block) : PageOp → Block
  | .putv k v => b.put_valB k v
  | .putr k p => b.put_refB k p
  | .rem i => b.remove i

/-- Apply a sequence of page operations. -/
def applyOps (b : Block) : List PageOp → Block
  | [] => b
  | op :: rest => applyOps (applyOp b op) rest

/-- Every put in the sequence uses a key absent from the page at call time
(no upserts). -/
def freshOps (b : Block) : List PageOp → Bool
  | [] => true
  | op :: rest =>
    (match op with
     | .putv k _ => b.entries.all (fun e => !(e.key == k))
     | .putr k _ => b.entries.all (fun e => !(e.key == k))
     | .rem _ => true) && freshOps (applyOp b op) rest

/-- The payload region is contiguous: the lowest slot offset equals the page
capacity minus the total payload bytes of the stored entries. -/
def contiguous (b : Block) : Prop :=
  b.entries = [] ∨ listMin (b.entries.map Entry.offset) = some (b.cap - totalPayload b.entries)

/-- The slot that `put_entry` inserts for a key not already present: payload
placed just below the lowest existing offset (or the capacity on an empty
page). -/
def Block.freshSlot (b : Block) (k v : List Nat) (p : Nat) : Entry :=
  ⟨((listMin (b.entries.map Entry.offset)).getD b.cap) - k.length - v.length, k, v, p⟩

/-- Cached page headers agree with their cache keys (the §4.2 invariant
"every cached entry's id equals page.id()"). -/
def cacheWellKeyed (db : DB) : Prop := ∀ p ∈ db.cache.map, (p.2).id = p.1

/-- On-disk page headers agree with their file positions. -/
def fileWellKeyed (db : DB) : Prop := ∀ i b, db.filePages.get? i = some b → b.id = i + 1

/-- Every id that can ever become resident while descending: the current
cache keys plus the ids of all file pages. -/
def idsOf (db : DB) : List Nat :=
  db.cache.map.map Prod.fst ++ (List.range db.filePages.length).map (· + 1)

/-- How many candidate ids the descent has not visited yet. -/
def unseenCount (U seen : List Nat) : Nat :=
  (U.filter (fun i => !(seen.contains i))).length

/-- Termination measure for the lookup descent: strictly decreases at every
step that descends into a child. -/
def lookMeasure (U seen : List Nat) (pid : Nat) : Nat :=
  2 * unseenCount U seen + (if seen.contains pid then 1 else 0)

/-- A well-formed single-page store whose root's only slot points back at the
root itself — the smallest cyclic page graph. -/
def cyclicDb : DB :=
  { pageBytes := 64, filePages := [⟨1, 64, [⟨40, [5], [], 1⟩]⟩],
    cache := LruCache.new 32, dirty := [], empty := [] }

/-- A store whose root is cached with one entry and marked dirty while the
on-disk root is still empty. -/
def rootDirty : Block := ⟨1, 64, [⟨45, [7], [8, 9], 0⟩]⟩

def dbDirty : DB :=
  { pageBytes := 64, filePages := [Block.create 1 64],
    cache := ⟨[(1, rootDirty)], [(1, 1)], [], 32, 1⟩, dirty := [1], empty := [] }

/-- A fresh store whose empty root is resident in cache. -/
def dbEmptyRoot : DB :=
  { pageBytes := 64, filePages := [Block.create 1 64],
    cache := ⟨[(1, Block.create 1 64)], [(1, 1)], [], 32, 1⟩, dirty := [], empty := [] }

/-- Total payload bytes of copied `(key, value, child)` triples, as they will
be laid out when re-inserted into a page. -/
def tripPayload (es : List (List Nat × List Nat × Nat)) : Nat :=
  (es.map (fun t => t.1.length + t.2.1.length)).sum

/-- A two-entry sorted root resident in cache over a one-page file — a
minimal store on which the root-split path runs to completion. -/
def rootW : Block := ⟨1, 64, [⟨62, [3], [4], 0⟩, ⟨60, [5], [6], 0⟩]⟩

def dbW : DB :=
  { pageBytes := 64, filePages := [Block.create 1 64],
    cache := ⟨[(1, rootW)], [(1, 1)], [], 32, 1⟩, dirty := [], empty := [] }

/-! ## Theorems -/

theorem byteCmp_refl (a : List Nat) : byteCmp a a = .eq := by
  induction a with
  | nil => rfl
  | cons x xs ih =>
    have hx : compare x x = Ordering.eq := by rw [Nat.compare_eq_eq]
    simp [byteCmp, hx, ih]

theorem byteCmp_eq_iff {a b : List Nat} : byteCmp a b = .eq ↔ a = b := by
  constructor
  · intro h
    induction a generalizing b with
    | nil => cases b with
      | nil => rfl
      | cons y ys => simp [byteCmp] at h
    | cons x xs ih =>
      cases b with
      | nil => simp [byteCmp] at h
      | cons y ys =>
        simp only [byteCmp] at h
        rcases hc : compare x y with hcv | hcv | hcv
        · rw [hc] at h; exact absurd h (by simp)
        · have hxy : x = y := by
            have := Nat.compare_eq_eq.mp hc
            exact this
          rw [hc] at h
          have := ih h
          rw [hxy, this]
        · rw [hc] at h; exact absurd h (by simp)
  · intro h; rw [h]; exact byteCmp_refl b

theorem byteCmp_gt_iff {a b : List Nat} : byteCmp a b = .gt ↔ byteCmp b a = .lt := by
  induction a generalizing b with
  | nil => cases b <;> simp [byteCmp]
  | cons x xs ih =>
    cases b with
    | nil => simp [byteCmp]
    | cons y ys =>
      simp only [byteCmp]
      rcases hc : compare x y with hcv | hcv | hcv
      · have : compare y x = .gt := by
          rw [Nat.compare_eq_gt]; exact Nat.compare_eq_lt.mp hc
        rw [this]; simp
      · have hyx : compare y x = .eq := by
          rw [Nat.compare_eq_eq] at hc ⊢; omega
        rw [hyx]; exact ih
      · have : compare y x = .lt := by
          rw [Nat.compare_eq_lt]; exact Nat.compare_eq_gt.mp hc
        rw [this]; simp

theorem byteCmp_lt_trans {a b c : List Nat} :
    byteCmp a b = .lt → byteCmp b c = .lt → byteCmp a c = .lt := by
  intro hab hbc
  induction a generalizing b c with
  | nil =>
    cases c with
    | nil =>
      cases b with
      | nil => simp [byteCmp] at hab
      | cons y ys => simp [byteCmp] at hbc
    | cons z zs => simp [byteCmp]
  | cons x xs ih =>
    cases b with
    | nil => simp [byteCmp] at hab
    | cons y ys =>
      cases c with
      | nil => simp [byteCmp] at hbc
      | cons z zs =>
        simp only [byteCmp] at hab hbc ⊢
        rcases hxy : compare x y with h1 | h1 | h1 <;> rw [hxy] at hab
        · -- x < y
          rcases hyz : compare y z with h2 | h2 | h2 <;> rw [hyz] at hbc
          · have : compare x z = .lt := by
              rw [Nat.compare_eq_lt] at hxy hyz ⊢; omega
            rw [this]
          · have : compare x z = .lt := by
              rw [Nat.compare_eq_lt] at hxy ⊢
              rw [Nat.compare_eq_eq] at hyz; omega
            rw [this]
          · simp at hbc
        · -- x = y
          rcases hyz : compare y z with h2 | h2 | h2 <;> rw [hyz] at hbc
          · have : compare x z = .lt := by
              rw [Nat.compare_eq_eq] at hxy
              rw [Nat.compare_eq_lt] at hyz ⊢; omega
            rw [this]
          · have : compare x z = .eq := by
              rw [Nat.compare_eq_eq] at hxy hyz ⊢; omega
            rw [this]
            exact ih hab hbc
          · simp at hbc
        · simp at hab

theorem byteCmp_not_gt_iff {a b : List Nat} :
    byteCmp a b ≠ .gt ↔ byteCmp a b = .lt ∨ a = b := by
  constructor
  · intro h
    rcases hc : byteCmp a b with h1 | h1 | h1
    · exact Or.inl rfl
    · exact Or.inr (byteCmp_eq_iff.mp hc)
    · exact absurd hc h
  · rintro (h | h) <;> simp [h, byteCmp_refl]

theorem keyLt_of_keyLe_of_keyLt {a b c : List Nat} :
    keyLe a b → keyLt b c → keyLt a c := by
  intro h1 h2
  rcases byteCmp_not_gt_iff.mp h1 with h | h
  · exact byteCmp_lt_trans h h2
  · rwa [h]

theorem keyLt_asymm {a b : List Nat} : keyLt a b → ¬ keyLt b a := by
  intro h1 h2
  have := byteCmp_lt_trans h1 h2
  rw [byteCmp_refl] at this
  exact absurd this (by simp)


theorem bsearchF_bounds (key : List Nat) (f : Nat → List Nat) :
    ∀ fuel lo hi, lo ≤ hi → lo ≤ bsearchF key f fuel lo hi ∧ bsearchF key f fuel lo hi ≤ hi := by
  intro fuel
  induction fuel with
  | zero => intro lo hi h; simp [bsearchF, h]
  | succ n ih =>
    intro lo hi h
    simp only [bsearchF]
    by_cases hlt : lo < hi
    · simp only [hlt, if_true]
      have hmid_lo : lo ≤ lo + (hi - lo) / 2 := Nat.le_add_right _ _
      have hmid_hi : lo + (hi - lo) / 2 < hi := by
        have : (hi - lo) / 2 < hi - lo := Nat.div_lt_self (by omega) (by omega)
        omega
      rcases hc : byteCmp key (f (lo + (hi - lo) / 2)) with h1 | h1 | h1 <;> simp only [hc]
      · have := ih lo (lo + (hi - lo) / 2) hmid_lo
        exact ⟨this.1, le_trans this.2 (le_of_lt hmid_hi)⟩
      · exact ⟨hmid_lo, le_of_lt hmid_hi⟩
      · have := ih (lo + (hi - lo) / 2 + 1) hi (by omega)
        exact ⟨by omega, this.2⟩
    · simp [hlt, h]

/-- At termination the probe is `≥ key` at the result, unless the result is
the right end `hi` (the loop only moves `hi` down onto indices probing `> key`). -/
theorem bsearchF_ge_or_hi (key : List Nat) (f : Nat → List Nat) :
    ∀ fuel lo hi, lo ≤ hi → hi - lo < fuel →
      keyLe key (f (bsearchF key f fuel lo hi)) ∨ bsearchF key f fuel lo hi = hi := by
  intro fuel
  induction fuel with
  | zero => omega
  | succ n ih =>
    intro lo hi h hfuel
    simp only [bsearchF]
    by_cases hlt : lo < hi
    · simp only [hlt, if_true]
      have hmid_hi : lo + (hi - lo) / 2 < hi := by
        have : (hi - lo) / 2 < hi - lo := Nat.div_lt_self (by omega) (by omega)
        omega
      rcases hc : byteCmp key (f (lo + (hi - lo) / 2)) with h1 | h1 | h1
      · rcases ih lo (lo + (hi - lo) / 2) (Nat.le_add_right _ _) (by omega) with h2 | h2
        · exact Or.inl h2
        · rw [h2]; exact Or.inl (by simp [keyLe, hc])
      · exact Or.inl (by simp [keyLe, hc])
      · exact ih (lo + (hi - lo) / 2 + 1) hi (by omega) (by omega)
    · simp only [hlt, if_false]
      omega

/-- Every index strictly left of the result probes `< key`, provided the
probed range is strictly sorted. -/
theorem bsearchF_left_lt (key : List Nat) (f : Nat → List Nat) :
    ∀ fuel lo hi, lo ≤ hi → hi - lo < fuel →
      (∀ i j, lo ≤ i → i < j → j ≤ hi → keyLt (f i) (f j)) →
      ∀ i, lo ≤ i → i < bsearchF key f fuel lo hi → keyLt (f i) key := by
  intro fuel
  induction fuel with
  | zero => omega
  | succ n ih =>
    intro lo hi h hfuel hmono i hi1 hi2
    simp only [bsearchF] at hi2
    by_cases hlt : lo < hi
    · simp only [hlt, if_true] at hi2
      have hmid_hi : lo + (hi - lo) / 2 < hi := by
        have : (hi - lo) / 2 < hi - lo := Nat.div_lt_self (by omega) (by omega)
        omega
      rcases hc : byteCmp key (f (lo + (hi - lo) / 2)) with h1 | h1 | h1 <;> rw [hc] at hi2
      · exact ih lo (lo + (hi - lo) / 2) (Nat.le_add_right _ _) (by omega)
          (fun a b ha hab hb => hmono a b ha hab (by omega)) i hi1 hi2
      · -- key is the probe at mid; everything strictly left of mid is < key
        have hkey : key = f (lo + (hi - lo) / 2) := byteCmp_eq_iff.mp hc
        rw [hkey]
        exact hmono i _ hi1 hi2 (by omega)
      · -- f mid < key
        have hmlt : keyLt (f (lo + (hi - lo) / 2)) key := byteCmp_gt_iff.mp hc
        by_cases hcase : i < lo + (hi - lo) / 2
        · exact byteCmp_lt_trans (hmono i _ hi1 hcase (by omega)) hmlt
        · by_cases hcase2 : i = lo + (hi - lo) / 2
          · rw [hcase2]; exact hmlt
          · exact ih (lo + (hi - lo) / 2 + 1) hi (by omega) (by omega)
              (fun a b ha hab hb => hmono a b (by omega) hab hb) i (by omega) hi2
    · simp only [hlt, if_false] at hi2; omega

set_option maxRecDepth 8000

/-- C1: after a sequence of successful mutations (the 25 distinct inserts of
`data25`, the removal of `yyyyyyyy`, then the successful insert of the 57-byte
key `zKey`), a lookup of the just-inserted key returns `Ok(None)` instead of
`Ok(Some v)`: the insert's parent-separator rewrite silently dropped the
root's rightmost separator when its `put_ref` did not fit, orphaning the leaf
that received the new entry. This refutes the claim that a successful
`insert(k, v)` is always followed by `lookup(k) = Ok(Some(v))`. -/
theorem C1_insert_then_lookup_none :
    dbZ.isSome ∧ lookOpt dbZ zKey = some (.ok none) := by decide

/-- C2: the separator-equals-child-max invariant holds after the 25 distinct
inserts of `data25` but is violated in the state reached by one further
*successful* insert that upserts the existing non-maximal leaf key
`aaaaaaaa`: `Block::put_entry` drops the leaf's maximal entry, while the
parent keeps the stale separator. The invariant is therefore not maintained
across all reachable states. -/
theorem C2_separator_invariant_broken :
    db25.map DB.sepInvariant = some true ∧
      dbUpsert.isSome ∧ dbUpsert.map DB.sepInvariant = some false := by decide

/-- C3: upserting the existing non-maximal key `[97]` of a two-entry page
erases the *other* entry: `put_entry` first decrements the slot count (hiding
the maximal slot `[98]`) and then removes the matched slot from the shortened
directory, so after the call the page holds only the upserted entry. The
pre-state provably contained both entries and the upsert returned `Some`. -/
theorem C3_upsert_loses_max_entry :
    pagePre.copy = [([97], [49, 49], 0), ([98], [50, 50], 0)] ∧
      (pagePre.put_val [97] [88, 89]).isSome ∧
      pageUps.copy = [([97], [88, 89], 0)] ∧
      pageUps.find [98] = none := by decide

/-- C4 (counterexample): the very first insert into a fresh store returns
`Ok` through the empty-page branch, which does not flush: the root, though
modified in cache (one slot) and marked dirty, still has zero slots on disk. -/
theorem C4_first_insert_not_flushed :
    dbFirst.isSome ∧
      dbFirst.map DB.dirty = some [ROOT] ∧
      dbFirst.map (fun d => (d.filePages.get? 0).map Block.len) = some (some 0) ∧
      dbFirst.map (fun d => (d.cacheContent ROOT).map Block.len) = some (some 1) := by decide

/-- C5: removing the absent key `[97]` from a store containing only
`[98] → [49]` returns `Ok(())` but deletes `[98]`: the leaf branch of
`Store::remove` removes the slot at the `ceil` index without comparing its
key to the probe. Before the call `lookup [98]` returned the value; after it,
`Ok(None)`. -/
theorem C5_remove_absent_deletes_successor :
    lookOpt dbB [98] = some (.ok (some [49])) ∧
      dbBRemA.isSome ∧
      lookOpt dbBRemA [98] = some (.ok none) := by decide

/-- C6 (counterexample): on `pageTight` the key `[107]` is present with a
50-byte value and only 4 bytes are free; removing its old entry would free
71 bytes — more than the 67 the replacement needs — yet `put_value` returns
`None`, because `fits` is checked **before** the removal, on the page as-is. -/
theorem C6_fit_checked_before_removal :
    (pageTight.find [107]).isSome ∧
      pageTight.free = 4 ∧
      1 + 50 + SLOT ≤ (pageTight.remove ((pageTight.find [107]).getD 0)).free ∧
      pageTight.put_val [107] (List.replicate 50 67) = none := by decide

/-- C10 (counterexample): after `create; put [98]; put [97]; put [98]` — an
upsert of the maximal key — the payload region is not contiguous: the lowest
slot offset is 120 while capacity minus the total stored payload is 123 (the
replaced entry's 3 payload bytes were never reclaimed). -/
theorem C10_upsert_breaks_contiguity :
    listMin (pageLeak.entries.map Entry.offset) = some 120 ∧
      pageLeak.cap - totalPayload pageLeak.entries = 123 := by decide

/-- C6 (amended): `put_entry` (hence `put_value` and `put_child`) verifies
the fit *before* any removal, on the page as it is at call time: the call
returns `Some` exactly when `free() ≥ key_len + value_len + 16` holds on
entry, whether or not the key is already present. -/
theorem C6_put_succeeds_iff_fits_on_entry (b : Block) (key val : List Nat) (page : Nat) :
    (b.put_entry key val page).isSome = b.fits (key.length + val.length) := by
  unfold Block.put_entry
  by_cases h : b.fits (key.length + val.length) <;> simp [h]

theorem sortedKeysB_spec {b : Block} (hs : sortedKeysB b = true) :
    ∀ i j, i < j → j < b.len → keyLt (b.key i) (b.key j) := by
  intro i j hij hj
  unfold sortedKeysB at hs
  rw [List.all_eq_true] at hs
  have h1 := hs j (List.mem_range.mpr hj)
  rw [List.all_eq_true] at h1
  have h2 := h1 i (List.mem_range.mpr hij)
  exact of_decide_eq_true h2

/-- C8: on a non-empty page whose slot directory is strictly sorted by key,
`ceil(key)` returns `some i` only for the smallest slot index `i` with
`key(i) ≥ key` (every smaller index holds a strictly smaller key), and it
returns `none` exactly when `key > max_key()`. -/
theorem C8_ceil_smallest_geq (b : Block) (key : List Nat)
    (hn : b.len ≠ 0) (hs : sortedKeysB b = true) :
    (∀ i, b.ceil key = some i →
      i < b.len ∧ keyLe key (b.key i) ∧ ∀ j, j < i → keyLt (b.key j) key) ∧
    (b.ceil key = none ↔ keyLt b.maxKey key) := by
  have hsorted := sortedKeysB_spec hs
  have hmono : ∀ i j, 0 ≤ i → i < j → j ≤ b.len - 1 → keyLt (b.key i) (b.key j) :=
    fun i j _ hij hj => hsorted i j hij (by omega)
  have hirr : ∀ a : List Nat, ¬ keyLt a a := by
    intro a h
    unfold keyLt at h
    rw [byteCmp_refl] at h
    cases h
  have hceil : b.ceil key =
      if keyLe key (b.key (bsearch key 0 (b.len - 1) fun i => b.key i))
      then some (bsearch key 0 (b.len - 1) fun i => b.key i) else none := by
    unfold Block.ceil
    rw [if_neg hn]
  have hb : bsearch key 0 (b.len - 1) (fun i => b.key i)
      = bsearchF key (fun i => b.key i) (b.len - 1 + 1) 0 (b.len - 1) := rfl
  generalize hkk : bsearch key 0 (b.len - 1) (fun i => b.key i) = k at hceil hb
  have hle : (0 : Nat) ≤ b.len - 1 := Nat.zero_le _
  have hfuel : b.len - 1 - 0 < b.len - 1 + 1 := by omega
  have hbounds : 0 ≤ k ∧ k ≤ b.len - 1 := by
    rw [hb]; exact bsearchF_bounds key (fun i => b.key i) (b.len - 1 + 1) 0 (b.len - 1) hle
  have hleft : ∀ j, j < k → keyLt (b.key j) key := by
    intro j hj
    rw [hb] at hj
    exact bsearchF_left_lt key (fun i => b.key i) (b.len - 1 + 1) 0 (b.len - 1)
      hle hfuel hmono j (Nat.zero_le _) hj
  have hgeorhi : keyLe key (b.key k) ∨ k = b.len - 1 := by
    rw [hb]
    exact bsearchF_ge_or_hi key (fun i => b.key i) (b.len - 1 + 1) 0 (b.len - 1) hle hfuel
  constructor
  · intro i hsome
    rw [hceil] at hsome
    by_cases hcmp : keyLe key (b.key k)
    · rw [if_pos hcmp] at hsome
      injection hsome with hik
      subst hik
      exact ⟨by omega, hcmp, hleft⟩
    · rw [if_neg hcmp] at hsome
      cases hsome
  · constructor
    · intro hnone
      rw [hceil] at hnone
      by_cases hcmp : keyLe key (b.key k)
      · rw [if_pos hcmp] at hnone
        cases hnone
      · have hgt : byteCmp key (b.key k) = .gt := by
          unfold keyLe at hcmp
          exact not_not.mp hcmp
        have hklt : keyLt (b.key k) key := byteCmp_gt_iff.mp hgt
        rcases hgeorhi with h | h
        · exact absurd h hcmp
        · unfold Block.maxKey
          rw [← h]
          exact hklt
    · intro hmax
      rw [hceil]
      rw [if_neg ?hneg]
      case hneg =>
        intro hcmp
        unfold Block.maxKey at hmax
        by_cases hek : k = b.len - 1
        · rw [← hek] at hmax
          exact hirr key (keyLt_of_keyLe_of_keyLt hcmp hmax)
        · have hkm : keyLt (b.key k) (b.key (b.len - 1)) :=
            hmono k (b.len - 1) (Nat.zero_le _) (by omega) (le_refl _)
          have h1 : keyLt key (b.key (b.len - 1)) := keyLt_of_keyLe_of_keyLt hcmp hkm
          have h2 : keyLt key key := byteCmp_lt_trans h1 hmax
          exact hirr key h2

theorem lookup_mem {β : Type} : ∀ {l : List (Nat × β)} {k : Nat} {v : β},
    l.lookup k = some v → (k, v) ∈ l := by
  intro l
  induction l with
  | nil => intro k v h; simp [List.lookup] at h
  | cons p t ih =>
    intro k v h
    rcases p with ⟨a, w⟩
    simp only [List.lookup] at h
    by_cases ha : k = a
    · subst ha
      simp only [beq_self_eq_true] at h
      simp only [Option.some.injEq] at h
      rw [← h]
      exact List.mem_cons_self _ _
    · have hne : (k == a) = false := by simpa using ha
      rw [hne] at h
      exact List.mem_cons_of_mem _ (ih h)

theorem assocPut_mem {β : Type} : ∀ (l : List (Nat × β)) (k : Nat) (v : β),
    ∀ p ∈ assocPut l k v, p = (k, v) ∨ p ∈ l := by
  intro l k v
  induction l with
  | nil => intro p hp; simp [assocPut] at hp; exact Or.inl hp
  | cons q t ih =>
    intro p hp
    rcases q with ⟨a, w⟩
    simp only [assocPut] at hp
    by_cases ha : a = k
    · rw [if_pos ha] at hp
      rcases List.mem_cons.mp hp with h | h
      · exact Or.inl h
      · exact Or.inr (List.mem_cons_of_mem _ h)
    · rw [if_neg ha] at hp
      rcases List.mem_cons.mp hp with h | h
      · exact Or.inr (h ▸ List.mem_cons_self _ _)
      · rcases ih p h with h2 | h2
        · exact Or.inl h2
        · exact Or.inr (List.mem_cons_of_mem _ h2)

theorem assocDel_mem {β : Type} : ∀ (l : List (Nat × β)) (k : Nat),
    ∀ p ∈ assocDel l k, p ∈ l := by
  intro l k
  induction l with
  | nil => intro p hp; simp [assocDel] at hp
  | cons q t ih =>
    intro p hp
    rcases q with ⟨a, w⟩
    simp only [assocDel] at hp
    by_cases ha : a = k
    · rw [if_pos ha] at hp
      exact List.mem_cons_of_mem _ hp
    · rw [if_neg ha] at hp
      rcases List.mem_cons.mp hp with h | h
      · exact h ▸ List.mem_cons_self _ _
      · exact List.mem_cons_of_mem _ (ih p h)

theorem assocPut_lookup_self {β : Type} : ∀ (l : List (Nat × β)) (k : Nat) (v : β),
    (assocPut l k v).lookup k = some v := by
  intro l k v
  induction l with
  | nil => simp [assocPut, List.lookup]
  | cons q t ih =>
    rcases q with ⟨a, w⟩
    simp only [assocPut]
    by_cases ha : a = k
    · rw [if_pos ha]; simp [List.lookup]
    · rw [if_neg ha]
      simp only [List.lookup]
      have : (k == a) = false := by simp; exact fun hh => ha hh.symm
      rw [this]
      exact ih

theorem cacheGet_map {c : LruCache} {id : Nat} : ((c.get id).2).map = c.map := by
  unfold LruCache.get
  by_cases h : c.has id <;> simp [h]

theorem cacheGet_fst {c : LruCache} {id : Nat} :
    (c.get id).1 = if c.has id then c.map.lookup id else none := by
  unfold LruCache.get
  by_cases h : c.has id <;> simp [h]

theorem cachePut_mem {c : LruCache} {id : Nat} {p : Block} :
    ∀ q ∈ (c.put id p).map, q = (id, p) ∨ q ∈ c.map := by
  intro q hq
  unfold LruCache.put at hq
  rcases assocPut_mem _ _ _ q hq with h | h
  · exact Or.inl h
  · unfold LruCache.evict at h
    rcases hv : c.lruVictim with _ | k
    · rw [hv] at h; exact Or.inr h
    · rw [hv] at h
      exact Or.inr (assocDel_mem _ _ q h)

theorem cachePut_lookup_self {c : LruCache} {id : Nat} {p : Block} :
    ((c.put id p)).map.lookup id = some p := by
  unfold LruCache.put
  exact assocPut_lookup_self _ _ _

/-- What a successful `Tree::page` guarantees: the disk is untouched, the
cache gains at most the requested id, the returned page is the one the store
holds for `id` (with matching header when the store is well-keyed), and the
id was already a cache key or a valid file position. -/
theorem DB.page_spec {db : DB} {id : Nat} {b : Block} {db' : DB}
    (h : db.page id = some (b, db')) :
    db'.filePages = db.filePages ∧
    (∀ k, k ∈ db'.cache.map.map Prod.fst → k = id ∨ k ∈ db.cache.map.map Prod.fst) ∧
    (cacheWellKeyed db → fileWellKeyed db → (b.id = id ∧ cacheWellKeyed db')) ∧
    (id ∈ db.cache.map.map Prod.fst ∨ (1 ≤ id ∧ id - 1 < db.filePages.length)) := by
  unfold DB.page at h
  rcases hcp : db.cachePage id with _ | db1
  · rw [hcp] at h; cases h
  · rw [hcp] at h
    dsimp only at h
    rcases hg : db1.cache.get id with ⟨r, c'⟩
    rw [hg] at h
    rcases r with _ | p
    · cases h
    · simp only [Option.some.injEq, Prod.mk.injEq] at h
      rcases h with ⟨hb, hdb⟩
      have hmap : c'.map = db1.cache.map := by
        have := @cacheGet_map db1.cache id
        rw [hg] at this
        exact this
      have hfst := @cacheGet_fst db1.cache id
      rw [hg] at hfst
      -- analyze how cachePage produced db1
      unfold DB.cachePage at hcp
      by_cases hhas : db.cache.has id
    -- resident case: db1 = db and the returned page is the cached one
      · rw [if_pos hhas] at hcp
        simp only [Option.some.injEq] at hcp
        subst hcp
        have hlook : db.cache.map.lookup id = some p := by
          rw [if_pos hhas] at hfst
          exact hfst.symm
        have hpm : (id, p) ∈ db.cache.map := lookup_mem hlook
        subst hdb
        refine ⟨rfl, ?_, ?_, ?_⟩
        · intro k hk
          simp only [hmap] at hk
          exact Or.inr hk
        · intro hcw _
          subst hb
          refine ⟨hcw (id, p) hpm, ?_⟩
          intro q hq
          simp only [hmap] at hq
          exact hcw q hq
        · exact Or.inl (List.mem_map.mpr ⟨(id, p), hpm, rfl⟩)
    -- miss case: the page was loaded from the file and put into the cache
      · rw [if_neg hhas] at hcp
        unfold DB.load at hcp
        by_cases h0 : id = 0
        · rw [if_pos h0] at hcp
          cases hcp
        · rw [if_neg h0] at hcp
          rcases hl : db.filePages.get? (id - 1) with _ | p0
          · rw [hl] at hcp; cases hcp
          · rw [hl] at hcp
            simp only [Option.some.injEq] at hcp
            have hc1 : db1.cache = db.cache.put id p0 := by rw [← hcp]
            have hfp1 : db1.filePages = db.filePages := by rw [← hcp]
            have hhas2 : db1.cache.has id := by
              unfold LruCache.has
              rw [hc1, cachePut_lookup_self]
              rfl
            have hlook : db1.cache.map.lookup id = some p := by
              rw [if_pos hhas2] at hfst
              exact hfst.symm
            have hp0 : p = p0 := by
              rw [hc1, cachePut_lookup_self] at hlook
              simpa using hlook.symm
            have hlen : id - 1 < db.filePages.length := by
              rcases List.get?_eq_some.mp hl with ⟨hlt, _⟩
              exact hlt
            subst hdb
            refine ⟨hfp1, ?_, ?_, Or.inr ⟨by omega, hlen⟩⟩
            · intro k hk
              simp only [hmap, hc1] at hk
              rcases List.mem_map.mp hk with ⟨z, hz, hzk⟩
              rcases cachePut_mem z hz with h2 | h2
              · left; rw [h2] at hzk; exact hzk.symm ▸ rfl
              · right; exact List.mem_map.mpr ⟨z, h2, hzk⟩
            · intro hcw hfw
              have hpid : p0.id = id := by
                have := hfw (id - 1) p0 hl
                omega
              constructor
              · rw [← hb, hp0]; exact hpid
              · intro z hz
                simp only [hmap, hc1] at hz
                rcases cachePut_mem z hz with h2 | h2
                · rw [h2]; exact hpid
                · exact hcw z h2

theorem insertSet_mem {s : List Nat} {x y : Nat} : y ∈ insertSet s x ↔ y ∈ s ∨ y = x := by
  unfold insertSet
  by_cases h : s.contains x
  · rw [if_pos h]
    constructor
    · exact Or.inl
    · rintro (hy | hy)
      · exact hy
      · rw [hy]; exact List.elem_iff.mp h
  · rw [if_neg h]
    simp [List.mem_append]

theorem contains_iff {s : List Nat} {y : Nat} : s.contains y = true ↔ y ∈ s := List.elem_iff

theorem filter_length_mono {p q : Nat → Bool} : ∀ (U : List Nat),
    (∀ a, q a = true → p a = true) →
    (U.filter q).length ≤ (U.filter p).length := by
  intro U h
  induction U with
  | nil => simp
  | cons y t ih =>
    simp only [List.filter]
    by_cases hq : q y = true
    · rw [hq, h y hq]
      simpa using ih
    · rw [Bool.eq_false_iff.mpr hq]
      by_cases hp : p y = true
      · rw [hp]
        simp only [List.length_cons]
        omega
      · rw [Bool.eq_false_iff.mpr hp]
        exact ih

theorem unseen_insert_le (U seen : List Nat) (x : Nat) :
    unseenCount U (insertSet seen x) ≤ unseenCount U seen := by
  unfold unseenCount
  apply filter_length_mono
  intro a ha
  simp only [Bool.not_eq_true', ← Bool.not_eq_true] at ha ⊢
  intro hc
  exact absurd (contains_iff.mpr (insertSet_mem.mpr (Or.inl (contains_iff.mp hc)))) ha

theorem filter_ne_lt {x : Nat} : ∀ {l : List Nat}, x ∈ l →
    (l.filter (fun i => !(i == x))).length < l.length := by
  intro l hx
  induction l with
  | nil => cases hx
  | cons y t ih =>
    simp only [List.filter_cons]
    by_cases hyx : y = x
    · have hcond : (!(y == x)) = false := by simp [hyx]
      rw [hcond]
      simp only [Bool.false_eq_true, if_false, List.length_cons]
      have := List.length_filter_le (fun i => !(i == x)) t
      omega
    · have hcond : (!(y == x)) = true := by simp [hyx]
      rw [hcond]
      simp only [if_true, List.length_cons]
      have hxt : x ∈ t := by
        rcases List.mem_cons.mp hx with h | h
        · exact absurd h.symm hyx
        · exact h
      have := ih hxt
      omega

theorem unseen_insert_lt {U seen : List Nat} {x : Nat}
    (hxU : x ∈ U) (hx : ¬ (seen.contains x = true)) :
    unseenCount U (insertSet seen x) < unseenCount U seen := by
  unfold unseenCount
  have hcong : U.filter (fun i => !((insertSet seen x).contains i))
      = (U.filter (fun i => !(seen.contains i))).filter (fun i => !(i == x)) := by
    rw [List.filter_filter]
    apply List.filter_congr
    intro a _
    by_cases h1 : a = x
    · subst h1
      have hc : (insertSet seen a).contains a = true :=
        contains_iff.mpr (insertSet_mem.mpr (Or.inr rfl))
      rw [hc]
      simp
    · have hsame : ((insertSet seen x).contains a) = (seen.contains a) := by
        by_cases hc : seen.contains a = true
        · rw [hc]
          exact contains_iff.mpr (insertSet_mem.mpr (Or.inl (contains_iff.mp hc)))
        · rw [Bool.eq_false_iff.mpr hc]
          rw [Bool.eq_false_iff]
          intro hc2
          rcases insertSet_mem.mp (contains_iff.mp hc2) with h2 | h2
          · exact hc (contains_iff.mpr h2)
          · exact h1 h2
      rw [hsame]
      have hax : (a == x) = false := by simpa using h1
      rw [hax]
      simp
  rw [hcong]
  apply filter_ne_lt
  rw [List.mem_filter]
  refine ⟨hxU, ?_⟩
  simp only [Bool.not_eq_true']
  exact Bool.eq_false_iff.mpr hx

/-- Termination of the lookup descent, by the `lookMeasure` argument: every
iteration either returns or strictly decreases the measure over the fixed id
universe `U`. -/
theorem lookupGo_terminates (key : List Nat) (U : List Nat) :
    ∀ (fuel : Nat) (db : DB) (page : Block) (seen : List Nat),
      cacheWellKeyed db → fileWellKeyed db →
      (∀ k, k ∈ db.cache.map.map Prod.fst → k ∈ U) →
      (∀ i, i < db.filePages.length → (i + 1) ∈ U) →
      page.id ∈ U →
      lookMeasure U seen page.id < fuel →
      (DB.lookupGo db page key seen fuel).isSome := by
  intro fuel
  induction fuel with
  | zero => intro db page seen _ _ _ _ _ hm; omega
  | succ m ih =>
    intro db page seen hcw hfw hkeys hfile hpid hm
    simp only [DB.lookupGo]
    rcases hceil : page.ceil key with _ | idx
    · simp [hceil]
    · simp only [hceil]
      rcases hslot : page.slot idx with _ | slot
      · simp [hslot]
      · simp only [hslot]
        by_cases hleaf : slot.page = 0
        · rw [if_pos hleaf]
          by_cases hk : key = page.key idx
          · rw [if_pos hk]; simp
          · rw [if_neg hk]; simp
        · rw [if_neg hleaf]
          by_cases hseen : seen.contains slot.page = true
          · rw [if_pos hseen]; simp
          · rw [if_neg hseen]
            rcases hpg : db.page slot.page with _ | bd
            · simp [hpg]
            · rcases bd with ⟨next, db1⟩
              simp only [hpg]
              rcases DB.page_spec hpg with ⟨hfp, hkeys1, hwk, hidsrc⟩
              rcases hwk hcw hfw with ⟨hnid, hcw1⟩
              have hfw1 : fileWellKeyed db1 := by
                intro i b hb
                rw [hfp] at hb
                exact hfw i b hb
              have hinU : slot.page ∈ U := by
                rcases hidsrc with h2 | h2
                · exact hkeys _ h2
                · have h3 := hfile (slot.page - 1) h2.2
                  have hk1 : slot.page - 1 + 1 = slot.page := by omega
                  rwa [hk1] at h3
              have hkeys1' : ∀ k, k ∈ db1.cache.map.map Prod.fst → k ∈ U := by
                intro k hk
                rcases hkeys1 k hk with h | h
                · rw [h]; exact hinU
                · exact hkeys _ h
              have hfile1 : ∀ i, i < db1.filePages.length → (i + 1) ∈ U := by
                intro i hi
                rw [hfp] at hi
                exact hfile i hi
              have hnext : next.id ∈ U := by
                rw [hnid]; exact hinU
              apply ih db1 next (insertSet seen page.id) hcw1 hfw1 hkeys1' hfile1 hnext
              -- the measure strictly decreased
              unfold lookMeasure at hm ⊢
              rw [hnid]
              by_cases hin : seen.contains page.id = true
              · rw [if_pos hin] at hm
                have hsame : insertSet seen page.id = seen := by
                  unfold insertSet
                  rw [if_pos hin]
                rw [hsame]
                rw [if_neg hseen]
                omega
              · rw [if_neg hin] at hm
                have hlt := unseen_insert_lt hpid hin
                by_cases hc2 : (insertSet seen page.id).contains slot.page = true
                · rw [if_pos hc2]; omega
                · rw [if_neg hc2]; omega

/-- C9: `lookup` terminates on every finite page graph — with fuel
`2·(cached pages + file pages) + 2` the descent always returns (each step
either returns or strictly shrinks the termination measure, so the loop runs
boundedly often even on cyclic graphs); and whenever the descent reaches a
child page id that is already in the visited set, it returns the typed
`Tree` error for a cyclic reference instead of looping. -/
theorem C9_lookup_terminates_and_cycle_error :
    (∀ (db : DB) (key : List Nat) (fuel : Nat),
      cacheWellKeyed db → fileWellKeyed db →
      (db.page ROOT).isSome →
      2 * (db.cache.map.length + db.filePages.length) + 2 ≤ fuel →
      (db.lookup key fuel).isSome) ∧
    (∀ (db : DB) (page : Block) (key : List Nat) (seen : List Nat) (fuel idx : Nat)
      (slot : Entry),
      page.ceil key = some idx → page.slot idx = some slot → slot.page ≠ 0 →
      seen.contains slot.page = true →
      DB.lookupGo db page key seen (fuel + 1) =
        some (.error (.tree page.id "Cyclic reference detected"), db)) := by
  constructor
  · intro db key fuel hcw hfw hroot hfuel
    unfold DB.lookup
    rcases hpg : db.page ROOT with _ | bd
    · rw [hpg] at hroot; cases hroot
    · rcases bd with ⟨root, db1⟩
      simp only
      rcases DB.page_spec hpg with ⟨hfp, hkeys1, hwk, hidsrc⟩
      rcases hwk hcw hfw with ⟨hrid, hcw1⟩
      have hfw1 : fileWellKeyed db1 := by
        intro i b hb
        rw [hfp] at hb
        exact hfw i b hb
      have hrootU : ROOT ∈ idsOf db := by
        unfold idsOf
        rcases hidsrc with h2 | h2
        · exact List.mem_append.mpr (Or.inl h2)
        · refine List.mem_append.mpr (Or.inr ?_)
          refine List.mem_map.mpr ⟨ROOT - 1, List.mem_range.mpr h2.2, ?_⟩
          simp [ROOT]
      apply lookupGo_terminates key (idsOf db) fuel db1 root [] hcw1 hfw1
      · intro k hk
        rcases hkeys1 k hk with h | h
        · rw [h]; exact hrootU
        · unfold idsOf
          exact List.mem_append.mpr (Or.inl h)
      · intro i hi
        unfold idsOf
        rw [hfp] at hi
        exact List.mem_append.mpr (Or.inr (List.mem_map.mpr ⟨i, List.mem_range.mpr hi, rfl⟩))
      · rw [hrid]; exact hrootU
      · unfold lookMeasure unseenCount
        have h1 : ((idsOf db).filter (fun i => !([] : List Nat).contains i)).length
            ≤ (idsOf db).length := List.length_filter_le _ _
        have h2 : (idsOf db).length = db.cache.map.length + db.filePages.length := by
          unfold idsOf
          simp
        have hind : (if ([] : List Nat).contains root.id = true then 1 else 0) = 0 := by simp
        omega
  · intro db page key seen fuel idx slot h1 h2 h3 h4
    simp only [DB.lookupGo, h1, h2, if_neg h3, h4, if_true]

/-- Witness for C9 on the concrete self-loop store `cyclicDb`: the lookup
terminates within the proved fuel bound, and at the moment the descent sees
the already-visited child the typed cyclic-reference error is produced. -/
theorem C9_witness :
    (cyclicDb.lookup [5] 10).isSome ∧
      DB.lookupGo cyclicDb ⟨1, 64, [⟨40, [5], [], 1⟩]⟩ [5] [1] 7 =
        some (.error (.tree 1 "Cyclic reference detected"), cyclicDb) :=
  ⟨C9_lookup_terminates_and_cycle_error.1 cyclicDb [5] 10
      (by intro p hp; simp [cyclicDb, LruCache.new] at hp)
      (by
        intro i b hb
        simp only [cyclicDb] at hb
        rcases i with _ | i
        · simp at hb; rw [← hb]
        · simp at hb)
      (by decide)
      (by simp [cyclicDb, LruCache.new]),
    C9_lookup_terminates_and_cycle_error.2 cyclicDb ⟨1, 64, [⟨40, [5], [], 1⟩]⟩ [5] [1] 6 0
      ⟨40, [5], [], 1⟩ (by decide) (by decide) (by decide) (by decide)⟩

/-- Witness for C8 at a concrete sorted page: probing `[3]` between the keys
`[2]` and `[4]` of `pageSorted`. -/
theorem C8_witness :
    (∀ i, pageSorted.ceil [3] = some i →
      i < pageSorted.len ∧ keyLe [3] (pageSorted.key i) ∧
        ∀ j, j < i → keyLt (pageSorted.key j) [3]) ∧
    (pageSorted.ceil [3] = none ↔ keyLt pageSorted.maxKey [3]) :=
  C8_ceil_smallest_geq pageSorted [3] (by decide) (by decide)

theorem ceil_lt_len {b : Block} {key : List Nat} {i : Nat} (h : b.ceil key = some i) :
    i < b.len := by
  unfold Block.ceil at h
  by_cases hn : b.len = 0
  · rw [if_pos hn] at h; cases h
  · rw [if_neg hn] at h
    by_cases hc : keyLe key (b.key (bsearch key 0 (b.len - 1) fun i => b.key i))
    · rw [if_pos hc] at h
      injection h with h
      have := bsearchF_bounds key (fun i => b.key i) (b.len - 1 - 0 + 1) 0 (b.len - 1)
        (Nat.zero_le _)
      have hb : bsearch key 0 (b.len - 1) (fun i => b.key i)
          = bsearchF key (fun i => b.key i) (b.len - 1 - 0 + 1) 0 (b.len - 1) := rfl
      rw [← hb] at this
      omega
    · rw [if_neg hc] at h; cases h

theorem listMin_ge {o : Nat} : ∀ {l : List Nat}, (∀ x ∈ l, o ≤ x) →
    ∀ {m : Nat}, listMin l = some m → o ≤ m := by
  intro l
  induction l with
  | nil => intro _ m h; cases h
  | cons x t ih =>
    intro hall m h
    simp only [listMin] at h
    rcases hm : listMin t with _ | mt
    · rw [hm] at h
      simp only [Option.some.injEq] at h
      rw [← h]
      exact hall x (List.mem_cons_self _ _)
    · rw [hm] at h
      simp only [Option.some.injEq] at h
      have h1 : o ≤ x := hall x (List.mem_cons_self _ _)
      have h2 : o ≤ mt := ih (fun y hy => hall y (List.mem_cons_of_mem _ hy)) hm
      rw [← h]
      exact le_min h1 h2

theorem listMin_perm : ∀ {l l' : List Nat}, l.Perm l' → listMin l = listMin l' := by
  intro l l' h
  induction h with
  | nil => rfl
  | cons x h ih => simp only [listMin, ih]
  | swap x y l =>
    simp only [listMin]
    rcases hm : listMin l with _ | m
    · simp [Nat.min_comm]
    · simp [Nat.min_left_comm, Nat.min_comm]
  | trans h1 h2 ih1 ih2 => exact ih1.trans ih2

theorem compact_offsets_ge : ∀ (l : List Entry) (o : Nat),
    ∀ x ∈ (compactFrom o l).map Entry.offset, o ≤ x := by
  intro l
  induction l with
  | nil => intro o x hx; simp [compactFrom] at hx
  | cons e t ih =>
    intro o x hx
    simp only [compactFrom, List.map_cons, List.mem_cons] at hx
    rcases hx with hx | hx
    · rw [hx]
    · have := ih (o + e.key.length + e.val.length) x hx
      omega

theorem compact_min (e : Entry) (t : List Entry) (o : Nat) :
    listMin ((compactFrom o (e :: t)).map Entry.offset) = some o := by
  simp only [compactFrom, List.map_cons, listMin]
  rcases hm : listMin ((compactFrom (o + e.key.length + e.val.length) t).map Entry.offset)
      with _ | m
  · rfl
  · have hge : o ≤ m := by
      refine listMin_ge ?_ hm
      intro x hx
      have := compact_offsets_ge t (o + e.key.length + e.val.length) x hx
      omega
    simp [Nat.min_eq_left hge]

theorem compact_total : ∀ (l : List Entry) (o : Nat),
    totalPayload (compactFrom o l) = totalPayload l := by
  intro l
  induction l with
  | nil => intro o; rfl
  | cons e t ih =>
    intro o
    simp only [compactFrom, totalPayload, List.map_cons, List.sum_cons] at *
    rw [ih]

theorem totalPayload_perm {l l' : List Entry} (h : l.Perm l') :
    totalPayload l = totalPayload l' := by
  unfold totalPayload
  exact (h.map _).sum_eq

/-- `Block::remove` restores contiguity whenever it removes a slot, and is a
no-op otherwise. -/
theorem remove_contiguous (b : Block) (idx : Nat) (hc : contiguous b) :
    contiguous (b.remove idx) := by
  unfold Block.remove
  by_cases h : idx ≥ b.len
  · rw [if_pos h]; exact hc
  · rw [if_neg h]
    rcases hsl : b.entries.eraseIdx idx with _ | ⟨e, rest⟩
    · left
      simp [hsl, compactFrom]
    · right
      simp only [hsl]
      rw [compact_min, compact_total]

/-- On a page not containing `key`, a fitting `put_entry` just inserts the
new slot at the `ceil` position, with its payload just below the lowest
existing offset. -/
theorem put_entry_fresh {b : Block} {k v : List Nat} {p : Nat}
    (hfresh : ∀ e ∈ b.entries, e.key ≠ k) (hfits : b.fits (k.length + v.length) = true) :
    b.put_entry k v p = some ((b.ceil k).getD b.len,
      { b with entries := b.entries.insertIdx ((b.ceil k).getD b.len) (b.freshSlot k v p) }) := by
  unfold Block.put_entry
  rw [if_neg (not_not_intro hfits)]
  have hb1 : (match b.ceil k with
      | some idx =>
        if b.key idx = k then Block.remove { b with entries := b.entries.dropLast } idx else b
      | none => b) = b := by
    rcases hcl : b.ceil k with _ | idx
    · rfl
    · simp only
      rw [if_neg ?hne]
      case hne =>
        have hlt := ceil_lt_len hcl
        unfold Block.key Block.slot
        rcases hget : b.entries.get? idx with _ | e
        · rw [List.get?_eq_none] at hget
          unfold Block.len at hlt
          omega
        · dsimp only [Option.map, Option.getD]
          exact hfresh e (List.get?_mem hget)
  dsimp only
  rw [hb1]
  rfl

/-- A fitting (or failing) put with a fresh key preserves contiguity. -/
theorem contiguous_put_fresh {b : Block} {k v : List Nat} {p : Nat}
    (hc : contiguous b) (hfresh : ∀ e ∈ b.entries, e.key ≠ k) :
    contiguous (((b.put_entry k v p).map Prod.snd).getD b) := by
  by_cases hfits : b.fits (k.length + v.length) = true
  · rw [put_entry_fresh hfresh hfits]
    show contiguous { b with entries := b.entries.insertIdx ((b.ceil k).getD b.len) (b.freshSlot k v p) }
    have hidx : (b.ceil k).getD b.len ≤ b.entries.length := by
      rcases hcl : b.ceil k with _ | i
      · simp [Block.len]
      · have := ceil_lt_len hcl
        unfold Block.len at this
        simp only [hcl, Option.getD_some]
        omega
    have hperm := List.perm_insertIdx (b.freshSlot k v p) b.entries hidx
    unfold contiguous
    refine Or.inr ?_
    dsimp only
    rw [listMin_perm (hperm.map Entry.offset), totalPayload_perm hperm]
    have hT : totalPayload (b.freshSlot k v p :: b.entries)
        = k.length + v.length + totalPayload b.entries := by
      unfold totalPayload Block.freshSlot
      simp only [List.map_cons, List.sum_cons]
    rw [hT]
    rcases hc with hnil | hmin
    · rw [hnil]
      unfold Block.freshSlot
      rw [hnil]
      simp only [List.map_cons, List.map_nil, listMin, totalPayload, List.sum_nil,
        List.sum_cons, Option.getD_none]
      refine congrArg some ?_
      omega
    · have hoff : (b.freshSlot k v p).offset
          = b.cap - totalPayload b.entries - k.length - v.length := by
        unfold Block.freshSlot
        rw [hmin]
        rfl
      simp only [List.map_cons, listMin, hmin]
      rw [hoff]
      refine congrArg some ?_
      have hle : b.cap - totalPayload b.entries - k.length - v.length
          ≤ b.cap - totalPayload b.entries := by omega
      unfold Nat.min
      rw [min_eq_left hle]
      omega
  · have hnone : b.put_entry k v p = none := by
      unfold Block.put_entry
      rw [if_pos (by rw [Bool.eq_false_iff.mpr hfits]; exact fun h => nomatch h)]
    rw [hnone]
    simpa using hc

theorem freshOps_step {b : Block} {op : PageOp} {ops : List PageOp}
    (h : freshOps b (op :: ops) = true) :
    freshOps (applyOp b op) ops = true := by
  unfold freshOps at h
  exact (Bool.and_eq_true_iff.mp h).2

/-- C10 (amended): starting from any contiguous page (in particular a fresh
`create`), a sequence of `put_val`/`put_ref`/`remove` operations in which
every put uses a key not already present keeps the payload region contiguous;
and on a contiguous page `free()` is determined by the stored entries alone
(`free = cap − total payload − directory size`), hence so are `full()` and
`fits()`. -/
theorem C10_contiguous_no_upsert :
    (∀ (id cap : Nat) (ops : List PageOp),
      freshOps (Block.create id cap) ops = true →
      contiguous (applyOps (Block.create id cap) ops)) ∧
    (∀ b : Block, contiguous b → b.len ≠ 0 →
      b.free = (b.cap - totalPayload b.entries) - (HEADB + b.len * SLOT)) := by
  have hstep : ∀ (ops : List PageOp) (b : Block), contiguous b → freshOps b ops = true →
      contiguous (applyOps b ops) := by
    intro ops
    induction ops with
    | nil => intro b hc _; exact hc
    | cons op rest ih =>
      intro b hc hf
      have hf2 := freshOps_step hf
      refine ih (applyOp b op) ?_ hf2
      rcases op with ⟨k, v⟩ | ⟨k, p⟩ | i
      · have hfresh : ∀ e ∈ b.entries, e.key ≠ k := by
          unfold freshOps at hf
          have h1 := (Bool.and_eq_true_iff.mp hf).1
          rw [List.all_eq_true] at h1
          intro e he
          have := h1 e he
          simpa using this
        exact contiguous_put_fresh hc hfresh
      · have hfresh : ∀ e ∈ b.entries, e.key ≠ k := by
          unfold freshOps at hf
          have h1 := (Bool.and_eq_true_iff.mp hf).1
          rw [List.all_eq_true] at h1
          intro e he
          have := h1 e he
          simpa using this
        exact contiguous_put_fresh hc hfresh
      · exact remove_contiguous b i hc
  constructor
  · intro id cap ops hf
    exact hstep ops (Block.create id cap) (Or.inl rfl) hf
  · intro b hc hn
    unfold Block.free
    rw [if_neg hn]
    rcases hc with hnil | hmin
    · unfold Block.len at hn
      rw [hnil] at hn
      simp at hn
    · rw [hmin]
      rfl

theorem insertSet_idem (s : List Nat) (x : Nat) :
    insertSet (insertSet s x) x = insertSet s x := by
  have h1 : (insertSet s x).contains x = true :=
    contains_iff.mpr (insertSet_mem.mpr (Or.inr rfl))
  nth_rewrite 1 [insertSet]
  rw [if_pos h1]

/-- A `Tree::page` on a resident id returns the cached buffer and only
refreshes its recency. -/
theorem page_resident {db : DB} {id : Nat} {b : Block} (h : db.cacheContent id = some b) :
    ∃ dbA, db.page id = some (b, dbA) ∧ dbA.cache.map = db.cache.map ∧
      dbA.filePages = db.filePages ∧ dbA.dirty = db.dirty ∧ dbA.pageBytes = db.pageBytes ∧
      dbA.empty = db.empty ∧ dbA.cache.cap = db.cache.cap := by
  have hhas : db.cache.has id = true := by
    unfold LruCache.has
    unfold DB.cacheContent at h
    rw [h]
    rfl
  have hfst := @cacheGet_fst db.cache id
  have hmapg := @cacheGet_map db.cache id
  rcases hg : db.cache.get id with ⟨r, c'⟩
  rw [hg] at hfst hmapg
  dsimp only at hfst hmapg
  rw [if_pos hhas] at hfst
  unfold DB.cacheContent at h
  rw [h] at hfst
  have hcap : c'.cap = db.cache.cap := by
    unfold LruCache.get at hg
    rw [if_neg (by rw [hhas]; exact fun hh => nomatch hh)] at hg
    cases hg
    rfl
  refine ⟨{ db with cache := c' }, ?_, hmapg, rfl, rfl, rfl, rfl, hcap⟩
  unfold DB.page DB.cachePage
  rw [if_pos hhas]
  dsimp only
  rw [hg, hfst]

/-- A `Tree::page_mut` on a resident id returns the cached buffer, marks the
id dirty and only refreshes recency. -/
theorem pageMut_resident {db : DB} {id : Nat} {b : Block} (h : db.cacheContent id = some b) :
    ∃ dbA, db.pageMut id = some (b, dbA) ∧ dbA.cache.map = db.cache.map ∧
      dbA.filePages = db.filePages ∧ dbA.dirty = insertSet db.dirty id ∧
      dbA.pageBytes = db.pageBytes ∧ dbA.empty = db.empty := by
  have hhas : db.cache.has id = true := by
    unfold LruCache.has
    unfold DB.cacheContent at h
    rw [h]
    rfl
  have hhas2 : (db.mark id).cache.has id = true := hhas
  have hlook : List.lookup id (db.mark id).cache.map = some b := h
  have hfst := @cacheGet_fst (db.mark id).cache id
  have hmapg := @cacheGet_map (db.mark id).cache id
  rcases hg : (db.mark id).cache.get id with ⟨r, c'⟩
  rw [hg] at hfst hmapg
  dsimp only at hfst hmapg
  rw [if_pos hhas2] at hfst
  rw [hlook] at hfst
  refine ⟨{ db.mark id with cache := c' }, ?_, hmapg, rfl, rfl, rfl, rfl⟩
  unfold DB.pageMut DB.cachePage
  rw [if_pos hhas]
  dsimp only
  rw [hg, hfst]

theorem save_get_self (db : DB) (p : Block) :
    (db.save p).filePages.get? (p.id - 1) = some p := by
  unfold DB.save
  dsimp only
  by_cases h : p.id - 1 < db.filePages.length
  · rw [if_pos h]
    exact List.get?_set_eq_of_lt p h
  · rw [if_neg h]
    apply List.get?_set_eq_of_lt
    rw [List.length_append, List.length_replicate]
    omega

theorem save_get_preserve {db : DB} {p : Block} {j : Nat} {x : Block}
    (hne : p.id - 1 ≠ j) (h : db.filePages.get? j = some x) :
    (db.save p).filePages.get? j = some x := by
  unfold DB.save
  dsimp only
  have hj : j < db.filePages.length := (List.get?_eq_some.mp h).1
  by_cases hcase : p.id - 1 < db.filePages.length
  · rw [if_pos hcase]
    rw [List.get?_set_ne _ _ hne]
    exact h
  · rw [if_neg hcase]
    rw [List.get?_set_ne _ _ hne]
    rw [List.get?_append hj]
    exact h

/-- The write-back loop leaves the dirty set alone. -/
theorem flushGo_dirty : ∀ (ids : List Nat) (db : DB) (failed : List Nat),
    ((DB.flushGo db ids failed).1).dirty = db.dirty := by
  intro ids
  induction ids with
  | nil => intro db failed; rfl
  | cons id rest ih =>
    intro db failed
    simp only [DB.flushGo]
    rcases hpg : db.page id with _ | bd
    · exact ih db (failed ++ [id])
    · rcases bd with ⟨p, dbA⟩
      rw [ih]
      have hdd : dbA.dirty = db.dirty := by
        unfold DB.page DB.cachePage at hpg
        by_cases hhas : db.cache.has id = true
        · rw [if_pos hhas] at hpg
          dsimp only at hpg
          rcases hg : db.cache.get id with ⟨r, c'⟩
          rw [hg] at hpg
          rcases r with _ | q
          · cases hpg
          · simp only [Option.some.injEq, Prod.mk.injEq] at hpg
            rw [← hpg.2]
        · rw [if_neg hhas] at hpg
          rcases hl : db.load id with _ | p0
          · rw [hl] at hpg; cases hpg
          · rw [hl] at hpg
            dsimp only at hpg
            rcases hg : (db.cache.put id p0).get id with ⟨r, c'⟩
            rw [hg] at hpg
            rcases r with _ | q
            · cases hpg
            · simp only [Option.some.injEq, Prod.mk.injEq] at hpg
              rw [← hpg.2]
      have hsv : (dbA.save p).dirty = dbA.dirty := rfl
      rw [hsv, hdd]

/-- The write-back loop, when every listed id is resident: each cached page
is written to its own file cell and all other established cells survive. -/
theorem flushGo_spec : ∀ (ids : List Nat) (db : DB) (failed : List Nat),
    cacheWellKeyed db →
    ids.Nodup →
    (∀ id ∈ ids, 1 ≤ id ∧ (db.cacheContent id).isSome) →
    (∀ id ∈ ids, ∀ b, db.cacheContent id = some b →
      ((DB.flushGo db ids failed).1).filePages.get? (id - 1) = some b) ∧
    (∀ j x, (∀ id ∈ ids, id - 1 ≠ j) → db.filePages.get? j = some x →
      ((DB.flushGo db ids failed).1).filePages.get? j = some x) := by
  intro ids
  induction ids with
  | nil => intro db failed _ _ _; exact ⟨fun id hid => absurd hid (List.not_mem_nil id), fun j x _ h => h⟩
  | cons id0 rest ih =>
    intro db failed hcw hnd hres
    obtain ⟨h1le, h1some⟩ := hres id0 (List.mem_cons_self _ _)
    rcases hb0 : db.cacheContent id0 with _ | b0
    · rw [hb0] at h1some; cases h1some
    · obtain ⟨dbA, hpg, hmapA, hfpA, hdirtyA, _, _, _⟩ := page_resident hb0
      have hb0id : b0.id = id0 := by
        have hpm : (id0, b0) ∈ db.cache.map := by
          unfold DB.cacheContent at hb0
          exact lookup_mem hb0
        exact hcw (id0, b0) hpm
      simp only [DB.flushGo, hpg]
      set dbB := dbA.save b0 with hdbB
      have hcwB : cacheWellKeyed dbB := by
        intro q hq
        have : q ∈ db.cache.map := by
          have hmapB : dbB.cache.map = db.cache.map := hmapA
          rw [hmapB] at hq
          exact hq
        exact hcw q this
      have hccB : ∀ k, dbB.cacheContent k = db.cacheContent k := by
        intro k
        unfold DB.cacheContent
        have hmapB : dbB.cache.map = db.cache.map := hmapA
        rw [hmapB]
      have hresB : ∀ id ∈ rest, 1 ≤ id ∧ (dbB.cacheContent id).isSome := by
        intro id hid
        rw [hccB]
        exact hres id (List.mem_cons_of_mem _ hid)
      have hndB : rest.Nodup := (List.nodup_cons.mp hnd).2
      obtain ⟨ihA, ihB⟩ := ih dbB failed hcwB hndB hresB
      constructor
      · intro id hid b hb
        rcases List.mem_cons.mp hid with hid0 | hidr
        · -- the head id: our own save wrote the cell; the rest leaves it alone
          rw [hid0] at hb ⊢
          have hbb : b = b0 := by
            rw [hb] at hb0
            injection hb0 with hbb
          apply ihB
          · intro id2 hid2
            have hne : id2 ≠ id0 := by
              intro hcontra
              rw [hcontra] at hid2
              exact (List.nodup_cons.mp hnd).1 hid2
            obtain ⟨h2le, _⟩ := hres id2 (List.mem_cons_of_mem _ hid2)
            omega
          · rw [hdbB, hbb, ← hb0id]
            exact save_get_self dbA b0
        · exact ihA id hidr b (by rw [hccB]; exact hb)
      · intro j x hj hx
        apply ihB
        · intro id2 hid2
          exact hj id2 (List.mem_cons_of_mem _ hid2)
        · rw [hdbB]
          apply save_get_preserve
          · rw [hb0id]
            exact hj id0 (List.mem_cons_self _ _)
          · rw [hfpA]
            exact hx

/-- C4 (amended): the flush performed by the leaf-mutation paths does its
job — it empties the dirty set and writes every dirty resident page back to
the page's own file cell — but an insert that lands on an empty page (the
first insert into a fresh root) returns `Ok` *without* flushing: the store's
file is untouched, the root stays dirty, and only the cached copy holds the
new entry. -/
theorem C4_flush_writes_back :
    (∀ db : DB,
      cacheWellKeyed db →
      db.dirty.Nodup →
      (∀ id ∈ db.dirty, 1 ≤ id ∧ (db.cacheContent id).isSome) →
      ((db.flush.2).dirty = [] ∧
        ∀ id ∈ db.dirty, ∀ b, db.cacheContent id = some b →
          (db.flush.2).filePages.get? (id - 1) = some b)) ∧
    (∀ (db : DB) (key val : List Nat) (fuel : Nat) (b0 : Block),
      db.cacheContent ROOT = some b0 → b0.len = 0 →
      b0.fits (key.length + val.length) = true →
      ∃ db', DB.insert db key val (fuel + 1) = some (.ok (), db') ∧
        db'.filePages = db.filePages ∧
        db'.dirty = insertSet db.dirty ROOT ∧
        db'.cacheContent ROOT = some (b0.put_valB key val)) := by
  constructor
  · intro db hcw hnd hres
    have hsnd : (db.flush).2 = (DB.flushGo { db with dirty := [] } db.dirty []).1 := by
      unfold DB.flush
      dsimp only
      split <;> rfl
    rw [hsnd]
    constructor
    · rw [flushGo_dirty]
    · intro id hid b hb
      have hspec := flushGo_spec db.dirty { db with dirty := [] } [] hcw hnd
        (by intro i hi; exact hres i hi)
      exact hspec.1 id hid b hb
  · intro db key val fuel b0 h hlen hfits
    have h1 : (db.mark ROOT).cacheContent ROOT = some b0 := h
    obtain ⟨db2, hpm, hmap2, hfp2, hdirty2, _, _⟩ := pageMut_resident h1
    unfold DB.insert
    rw [hpm]
    have hcc2 : db2.cacheContent ROOT = some b0 := by
      unfold DB.cacheContent
      rw [hmap2]
      exact h1
    refine ⟨db2.setPage ROOT (b0.put_valB key val), ?_, ?_, ?_, ?_⟩
    · simp only [DB.insertGo, hcc2]
      rw [if_pos hlen, if_neg (not_not_intro hfits)]
    · have hsp : (db2.setPage ROOT (b0.put_valB key val)).filePages = db2.filePages := rfl
      rw [hsp, hfp2]
      rfl
    · have hsd : (db2.setPage ROOT (b0.put_valB key val)).dirty = db2.dirty := rfl
      rw [hsd, hdirty2]
      exact insertSet_idem db.dirty ROOT
    · unfold DB.setPage DB.cacheContent
      dsimp only
      exact assocPut_lookup_self _ _ _

/-- Witness for C4: flushing `dbDirty` (a store whose modified root is
resident and dirty) clears the dirty set and writes the cached root to disk;
and the first insert into the fresh `dbEmptyRoot` returns `Ok` leaving the
file untouched and the root dirty. -/
theorem C4_flush_writes_back_witness :
    ((dbDirty.flush.2).dirty = [] ∧
      ∀ id ∈ dbDirty.dirty, ∀ b, dbDirty.cacheContent id = some b →
        (dbDirty.flush.2).filePages.get? (id - 1) = some b) ∧
    (∃ db', DB.insert dbEmptyRoot [3] [4] (5 + 1) = some (.ok (), db') ∧
      db'.filePages = dbEmptyRoot.filePages ∧
      db'.dirty = insertSet dbEmptyRoot.dirty ROOT ∧
      db'.cacheContent ROOT = some ((Block.create 1 64).put_valB [3] [4])) :=
  ⟨C4_flush_writes_back.1 dbDirty
      (by intro p hp; rw [List.mem_singleton.mp hp]; rfl)
      (by decide)
      (by intro id hid; rw [List.mem_singleton.mp hid]; exact ⟨le_refl 1, by rfl⟩),
    C4_flush_writes_back.2 dbEmptyRoot [3] [4] 5 (Block.create 1 64) rfl rfl (by decide)⟩

/-- Witness for C10 at a concrete run: `create; put [3]→[7,7]; put [1]→[9];
remove 0; put [2]→child 5` on a 64-byte page, all puts with fresh keys. -/
theorem C10_contiguous_no_upsert_witness :
    contiguous (applyOps (Block.create 9 64)
      [.putv [3] [7, 7], .putv [1] [9], .rem 0, .putr [2] 5]) ∧
      (applyOps (Block.create 9 64)
        [.putv [3] [7, 7], .putv [1] [9], .rem 0, .putr [2] 5]).free
        = ((applyOps (Block.create 9 64)
            [.putv [3] [7, 7], .putv [1] [9], .rem 0, .putr [2] 5]).cap
          - totalPayload (applyOps (Block.create 9 64)
              [.putv [3] [7, 7], .putv [1] [9], .rem 0, .putr [2] 5]).entries)
          - (HEADB + (applyOps (Block.create 9 64)
              [.putv [3] [7, 7], .putv [1] [9], .rem 0, .putr [2] 5]).len * SLOT) := by
  have h1 := C10_contiguous_no_upsert.1 9 64
    [.putv [3] [7, 7], .putv [1] [9], .rem 0, .putr [2] 5] (by decide)
  refine ⟨h1, C10_contiguous_no_upsert.2 _ h1 (by decide)⟩

/-! ### Root split (C7) -/

theorem assocPut_lookup_ne {β : Type} : ∀ (l : List (Nat × β)) (k k' : Nat) (v : β),
    k' ≠ k → (assocPut l k v).lookup k' = l.lookup k' := by
  intro l
  induction l with
  | nil =>
    intro k k' v h
    simp only [assocPut, List.lookup]
    have : (k' == k) = false := by simp [h]
    rw [this]
  | cons q t ih =>
    rcases q with ⟨a, w⟩
    intro k k' v h
    simp only [assocPut]
    by_cases ha : a = k
    · rw [if_pos ha]
      simp only [List.lookup]
      have h1 : (k' == k) = false := by simp [h]
      have h2 : (k' == a) = false := by simp [ha ▸ h]
      rw [h1, h2]
    · rw [if_neg ha]
      simp only [List.lookup]
      by_cases hk : k' = a
      · have : (k' == a) = true := by simp [hk]
        rw [this]
      · have : (k' == a) = false := by simp [hk]
        rw [this]
        exact ih k k' v h

theorem assocPut_length_none {β : Type} : ∀ (l : List (Nat × β)) (k : Nat) (v : β),
    l.lookup k = none → (assocPut l k v).length = l.length + 1 := by
  intro l
  induction l with
  | nil => intro k v _; rfl
  | cons q t ih =>
    rcases q with ⟨a, w⟩
    intro k v h
    simp only [List.lookup] at h
    by_cases hk : k = a
    · have hbeq : (k == a) = true := by simp [hk]
      rw [hbeq] at h
      cases h
    · have hbeq : (k == a) = false := by simpa using hk
      rw [hbeq] at h
      simp only [assocPut]
      rw [if_neg (fun ha => hk ha.symm)]
      simp only [List.length_cons]
      rw [ih k v h]

theorem assocPut_length_some {β : Type} : ∀ (l : List (Nat × β)) (k : Nat) (v w : β),
    l.lookup k = some w → (assocPut l k v).length = l.length := by
  intro l
  induction l with
  | nil => intro k v w h; cases h
  | cons q t ih =>
    rcases q with ⟨a, b⟩
    intro k v w h
    simp only [List.lookup] at h
    simp only [assocPut]
    by_cases ha : a = k
    · rw [if_pos ha]; rfl
    · rw [if_neg ha]
      have hka : ¬ k = a := fun hk => ha hk.symm
      have hbeq : (k == a) = false := by simpa using hka
      rw [hbeq] at h
      simp only [List.length_cons]
      rw [ih k v w h]

/-- `next_id` with an empty free heap extends the file by one fresh empty
page whose id is one past the current last page. -/
theorem next_id_empty {db : DB} (h : db.empty = []) :
    ∃ dbA, db.next_id = some (db.filePages.length + 1, dbA) ∧
      dbA.filePages
        = db.filePages ++ [Block.create (db.filePages.length + 1) db.pageBytes] ∧
      dbA.cache = db.cache ∧ dbA.dirty = db.dirty ∧ dbA.empty = db.empty ∧
      dbA.pageBytes = db.pageBytes := by
  refine ⟨{ db with filePages :=
      db.filePages ++ [Block.create (db.filePages.length + 1) db.pageBytes] },
    ?_, rfl, rfl, rfl, rfl, rfl⟩
  unfold DB.next_id
  rw [h]
  rfl

/-- `Cache::put` below capacity evicts nothing. -/
theorem cachePut_no_evict {c : LruCache} {id : Nat} {p : Block}
    (h : c.map.length < c.cap) :
    (c.put id p).map = assocPut c.map id p ∧ (c.put id p).cap = c.cap := by
  have hv : c.lruVictim = none := by
    unfold LruCache.lruVictim
    rw [if_pos h]
  have he : c.evict = c := by
    unfold LruCache.evict
    rw [hv]
  unfold LruCache.put
  rw [he]
  exact ⟨rfl, rfl⟩

/-- `Tree::page_mut` on an uncached id that is present on disk caches the
loaded page (no eviction below capacity) and marks the id dirty. -/
theorem pageMut_absent {db : DB} {id : Nat} {b : Block}
    (hno : db.cache.has id = false) (hid : id ≠ 0)
    (hload : db.filePages.get? (id - 1) = some b)
    (hroom : db.cache.map.length < db.cache.cap) :
    ∃ dbA, db.pageMut id = some (b, dbA) ∧
      dbA.cache.map = assocPut db.cache.map id b ∧
      dbA.filePages = db.filePages ∧ dbA.dirty = insertSet db.dirty id ∧
      dbA.pageBytes = db.pageBytes ∧ dbA.empty = db.empty ∧
      dbA.cache.cap = db.cache.cap := by
  have hput := @cachePut_no_evict db.cache id b hroom
  have hld : db.load id = some b := by
    unfold DB.load
    rw [if_neg hid]
    exact hload
  have hno' : ¬ (db.cache.has id = true) := by
    rw [hno]
    exact fun hh => nomatch hh
  have hcp : db.cachePage id = some { db with cache := db.cache.put id b } := by
    unfold DB.cachePage
    rw [if_neg hno', hld]
  have hasid : (db.cache.put id b).has id = true := by
    unfold LruCache.has
    rw [hput.1, assocPut_lookup_self]
    rfl
  have hlook : (db.cache.put id b).map.lookup id = some b := by
    rw [hput.1]
    exact assocPut_lookup_self _ _ _
  have hfst := @cacheGet_fst (db.cache.put id b) id
  have hmapg := @cacheGet_map (db.cache.put id b) id
  rcases hg : (db.cache.put id b).get id with ⟨r, c'⟩
  rw [hg] at hfst hmapg
  dsimp only at hfst hmapg
  rw [if_pos hasid] at hfst
  rw [hlook] at hfst
  have hcapc : c'.cap = (db.cache.put id b).cap := by
    unfold LruCache.get at hg
    rw [if_neg (by rw [hasid]; exact fun hh => nomatch hh)] at hg
    cases hg
    rfl
  refine ⟨{ db with cache := c', dirty := insertSet db.dirty id }, ?_, ?_, rfl, rfl, rfl, rfl, ?_⟩
  · unfold DB.pageMut
    rw [hcp]
    dsimp only
    have hg2 : (({ db with cache := db.cache.put id b } : DB).mark id).cache.get id
        = (r, c') := hg
    rw [hg2, hfst]
    rfl
  · rw [hmapg, hput.1]
  · rw [hcapc, hput.2]

theorem setPage_map (db : DB) (id : Nat) (p : Block) :
    (db.setPage id p).cache.map = assocPut db.cache.map id p := rfl

theorem setPage_filePages (db : DB) (id : Nat) (p : Block) :
    (db.setPage id p).filePages = db.filePages := rfl

theorem setPage_cap (db : DB) (id : Nat) (p : Block) :
    (db.setPage id p).cache.cap = db.cache.cap := rfl

theorem totalPayload_append (l1 l2 : List Entry) :
    totalPayload (l1 ++ l2) = totalPayload l1 + totalPayload l2 := by
  simp [totalPayload]

theorem payload_mem_le {e : Entry} {l : List Entry} (h : e ∈ l) :
    e.key.length + e.val.length ≤ totalPayload l :=
  List.single_le_sum (fun x _ => Nat.zero_le x) _
    (List.mem_map_of_mem (fun e => e.key.length + e.val.length) h)

theorem tripPayload_cons (t : List Nat × List Nat × Nat)
    (rest : List (List Nat × List Nat × Nat)) :
    tripPayload (t :: rest) = t.1.length + t.2.1.length + tripPayload rest := rfl

theorem tripPayload_append (l1 l2 : List (List Nat × List Nat × Nat)) :
    tripPayload (l1 ++ l2) = tripPayload l1 + tripPayload l2 := by
  simp [tripPayload]

theorem tripPayload_copy (b : Block) : tripPayload b.copy = totalPayload b.entries := by
  unfold tripPayload Block.copy totalPayload
  rw [List.map_map]
  rfl

/-- A slot key read through `copy`. -/
theorem key_of_copy (b : Block) (i : Nat) :
    b.key i = ((b.copy.get? i).map Prod.fst).getD [] := by
  unfold Block.key Block.slot Block.copy
  rw [List.get?_map]
  rcases b.entries.get? i with _ | e <;> rfl

/-- When every stored key is strictly below the probe, `ceil` finds nothing. -/
theorem ceil_none_of_all_lt {b : Block} {k : List Nat}
    (h : ∀ e ∈ b.entries, keyLt e.key k) : b.ceil k = none := by
  unfold Block.ceil
  by_cases hn : b.len = 0
  · rw [if_pos hn]
  · rw [if_neg hn]
    have hb := (bsearchF_bounds k (fun i => b.key i) (b.len - 1 - 0 + 1) 0 (b.len - 1)
      (Nat.zero_le _)).2
    set j := bsearch k 0 (b.len - 1) (fun i => b.key i) with hj
    have hlt : j < b.len := by
      rw [hj]
      unfold bsearch
      omega
    rcases hget : b.entries.get? j with _ | e
    · exfalso
      rw [List.get?_eq_get hlt] at hget
      cases hget
    · have hkey : b.key j = e.key := by
        unfold Block.key Block.slot
        rw [hget]
        rfl
      have hke : keyLt e.key k := h e (List.get?_mem hget)
      rw [if_neg ?_]
      intro hle
      rw [hkey] at hle
      exact hle (byteCmp_gt_iff.mpr hke)

/-- The move loop of `split`: filling a page with strictly ascending fresh
keys that all fit appends the copied triples in order, preserving id and
capacity (value bytes of ref-triples are the empty slice, as `put_ref`
stores). -/
theorem fillEntries_spec : ∀ (es : List (List Nat × List Nat × Nat)) (b : Block),
    contiguous b →
    List.Pairwise (fun s t => keyLt s.1 t.1) es →
    (∀ e ∈ b.entries, ∀ t ∈ es, keyLt e.key t.1) →
    (∀ t ∈ es, t.2.2 ≠ 0 → t.2.1 = []) →
    HEADB + b.len * SLOT + es.length * SLOT + totalPayload b.entries + tripPayload es
      ≤ b.cap →
    (fillEntries b es).copy = b.copy ++ es ∧ (fillEntries b es).id = b.id ∧
      (fillEntries b es).cap = b.cap := by
  intro es
  induction es with
  | nil =>
    intro b _ _ _ _ _
    exact ⟨(List.append_nil _).symm, rfl, rfl⟩
  | cons t rest ih =>
    intro b hc hpair hlt hwf hsz
    obtain ⟨k, v, p⟩ := t
    have hv : p ≠ 0 → v = [] := fun hp => hwf (k, v, p) (List.mem_cons_self _ _) hp
    have hstep : (if p = 0 then b.put_valB k v else b.put_refB k p)
        = ((b.put_entry k v p).map Prod.snd).getD b := by
      by_cases hp : p = 0
      · rw [if_pos hp, hp]
        rfl
      · rw [if_neg hp]
        unfold Block.put_refB Block.put_ref
        rw [hv hp]
    have hfresh : ∀ e ∈ b.entries, e.key ≠ k := by
      intro e he heq
      have hkk := hlt e he (k, v, p) (List.mem_cons_self _ _)
      rw [heq] at hkk
      unfold keyLt at hkk
      rw [byteCmp_refl] at hkk
      exact absurd hkk (by decide)
    have hsz' : HEADB + b.len * SLOT + rest.length * SLOT + SLOT
        + totalPayload b.entries + (k.length + v.length) + tripPayload rest ≤ b.cap := by
      have h1 : ((k, v, p) :: rest).length = rest.length + 1 := rfl
      have h2 : tripPayload ((k, v, p) :: rest) = k.length + v.length + tripPayload rest := rfl
      rw [h1, h2, Nat.succ_mul] at hsz
      omega
    have hfits : b.fits (k.length + v.length) = true := by
      unfold Block.fits
      rw [decide_eq_true_eq]
      unfold Block.free
      by_cases h0 : b.len = 0
      · rw [if_pos h0]
        have hnil : b.entries = [] := List.length_eq_zero.mp h0
        have htp : totalPayload b.entries = 0 := by rw [hnil]; rfl
        have hm : b.len * SLOT = 0 := by rw [h0]; rfl
        omega
      · rw [if_neg h0]
        rcases hc with hce | hcm
        · exfalso
          apply h0
          show b.entries.length = 0
          rw [hce]
          rfl
        · dsimp only
          rw [hcm]
          simp only [Option.getD_some]
          omega
    have hceil : b.ceil k = none :=
      ceil_none_of_all_lt (fun e he => hlt e he (k, v, p) (List.mem_cons_self _ _))
    have hput := @put_entry_fresh b k v p hfresh hfits
    have hb'eq : ((b.put_entry k v p).map Prod.snd).getD b
        = { b with entries := b.entries ++ [b.freshSlot k v p] } := by
      rw [hput]
      simp only [Option.map_some', Option.getD_some]
      rw [hceil]
      simp only [Option.getD_none]
      rw [show b.len = b.entries.length from rfl, List.insertIdx_length_self]
    have hcont' : contiguous { b with entries := b.entries ++ [b.freshSlot k v p] } := by
      have hcg := @contiguous_put_fresh b k v p hc hfresh
      rw [hb'eq] at hcg
      exact hcg
    have hcopy' : ({ b with entries := b.entries ++ [b.freshSlot k v p] } : Block).copy
        = b.copy ++ [(k, v, p)] := by
      show (b.entries ++ [b.freshSlot k v p]).map _ = _
      rw [List.map_append]
      rfl
    have hpair' : List.Pairwise (fun s t => keyLt s.1 t.1) rest := hpair.of_cons
    have hhead : ∀ t' ∈ rest, keyLt k t'.1 := by
      intro t' ht'
      exact (List.pairwise_cons.mp hpair).1 t' ht'
    have hlt' : ∀ e ∈ ({ b with entries := b.entries ++ [b.freshSlot k v p] } : Block).entries,
        ∀ t' ∈ rest, keyLt e.key t'.1 := by
      intro e he t' ht'
      have he2 : e ∈ b.entries ++ [b.freshSlot k v p] := he
      rcases List.mem_append.mp he2 with h1 | h1
      · exact hlt e h1 t' (List.mem_cons_of_mem _ ht')
      · rw [List.mem_singleton.mp h1]
        exact hhead t' ht'
    have hwf' : ∀ t' ∈ rest, t'.2.2 ≠ 0 → t'.2.1 = [] :=
      fun t' ht' => hwf t' (List.mem_cons_of_mem _ ht')
    have hsz'' : HEADB + ({ b with entries := b.entries ++ [b.freshSlot k v p] } : Block).len
          * SLOT + rest.length * SLOT
        + totalPayload ({ b with entries := b.entries ++ [b.freshSlot k v p] } : Block).entries
        + tripPayload rest
        ≤ ({ b with entries := b.entries ++ [b.freshSlot k v p] } : Block).cap := by
      have hl : ({ b with entries := b.entries ++ [b.freshSlot k v p] } : Block).len
          = b.len + 1 := by
        show (b.entries ++ [b.freshSlot k v p]).length = b.entries.length + 1
        rw [List.length_append]
        rfl
      have htp : totalPayload ({ b with entries := b.entries ++ [b.freshSlot k v p] }
            : Block).entries
          = totalPayload b.entries + (k.length + v.length) := by
        show totalPayload (b.entries ++ [b.freshSlot k v p]) = _
        rw [totalPayload_append]
        rfl
      rw [hl, htp, Nat.succ_mul]
      show HEADB + (b.len * SLOT + SLOT) + rest.length * SLOT
          + (totalPayload b.entries + (k.length + v.length)) + tripPayload rest ≤ b.cap
      omega
    have hrec := ih { b with entries := b.entries ++ [b.freshSlot k v p] }
      hcont' hpair' hlt' hwf' hsz''
    have hfe : fillEntries b ((k, v, p) :: rest)
        = fillEntries { b with entries := b.entries ++ [b.freshSlot k v p] } rest := by
      show fillEntries (if p = 0 then b.put_valB k v else b.put_refB k p) rest = _
      rw [hstep, hb'eq]
    refine ⟨?_, ?_, ?_⟩
    · rw [hfe, hrec.1, hcopy', List.append_assoc]
      rfl
    · rw [hfe, hrec.2.1]
    · rw [hfe, hrec.2.2]

theorem keyLt_ne {a b : List Nat} (h : keyLt a b) : a ≠ b := by
  intro heq
  rw [heq] at h
  unfold keyLt at h
  rw [byteCmp_refl] at h
  exact absurd h (by decide)

/-- C7: with the free heap empty, a root page of `n ≥ 2` strictly sorted,
well-formed entries resident in a roomy cache splits as specified: two fresh
ids `lo = N+1` and `hi = N+2` are allocated past the `N` existing file pages,
`lo` receives the first `⌊n/2⌋` copied entries and `hi` the rest, and the
root — its id still `ROOT` — is reset to exactly the two separators
`(lo.max_key → lo)` and `(hi.max_key → hi)`. -/
theorem C7_root_split (db : DB) (parent_id : Nat) (root : Block)
    (hroot : db.cacheContent ROOT = some root)
    (hrid : root.id = ROOT)
    (hcapr : root.cap = db.pageBytes)
    (hemp : db.empty = [])
    (hN : 1 ≤ db.filePages.length)
    (hn : 2 ≤ root.len)
    (hsorted : sortedKeysB root = true)
    (hrefs : ∀ e ∈ root.entries, e.page ≠ 0 → e.val = [])
    (hsize : HEADB + root.len * SLOT + totalPayload root.entries ≤ db.pageBytes)
    (hlo : db.cache.has (db.filePages.length + 1) = false)
    (hhi : db.cache.has (db.filePages.length + 2) = false)
    (hroom : db.cache.map.length + 2 ≤ db.cache.cap) :
    ∃ dbF loB hiB rootF,
      db.split ROOT parent_id = some (.ok (), dbF) ∧
      dbF.cacheContent (db.filePages.length + 1) = some loB ∧
      dbF.cacheContent (db.filePages.length + 2) = some hiB ∧
      dbF.cacheContent ROOT = some rootF ∧
      loB.id = db.filePages.length + 1 ∧
      hiB.id = db.filePages.length + 2 ∧
      loB.copy = root.copy.take (root.len / 2) ∧
      hiB.copy = root.copy.drop (root.len / 2) ∧
      rootF.id = ROOT ∧
      rootF.copy = [(loB.maxKey, [], db.filePages.length + 1),
                    (hiB.maxKey, [], db.filePages.length + 2)] := by
  have hR : ROOT = 1 := rfl
  -- allocation of the two fresh ids
  obtain ⟨dbA, hn1, hfpA, hcA, hdA, heA, hpbA⟩ := next_id_empty hemp
  have heA' : dbA.empty = [] := by rw [heA, hemp]
  obtain ⟨dbB, hn2, hfpB, hcB, hdB, heB, hpbB⟩ := next_id_empty heA'
  have hlenA : dbA.filePages.length = db.filePages.length + 1 := by
    rw [hfpA, List.length_append]
    rfl
  rw [hlenA] at hn2 hfpB
  rw [hpbA] at hfpB
  rw [show db.filePages.length + 1 + 1 = db.filePages.length + 2 from rfl] at hn2 hfpB
  rw [hfpA] at hfpB
  -- the root read
  have hrootB : dbB.cacheContent ROOT = some root := by
    unfold DB.cacheContent
    rw [hcB, hcA]
    exact hroot
  obtain ⟨db1, hpg, hm1, hfp1, hd1, hpb1, he1, hcap1⟩ := page_resident hrootB
  have hm1' : db1.cache.map = db.cache.map := by rw [hm1, hcB, hcA]
  have hcap1' : db1.cache.cap = db.cache.cap := by rw [hcap1, hcB, hcA]
  have hfp1' : db1.filePages
      = (db.filePages ++ [Block.create (db.filePages.length + 1) db.pageBytes])
        ++ [Block.create (db.filePages.length + 2) db.pageBytes] := by
    rw [hfp1, hfpB]
  -- the copied halves exist
  have hhalf : ¬ (root.len / 2 = 0) := by omega
  have hcoplen : root.copy.length = root.len := by
    simp [Block.copy, Block.len]
  rcases hget_lo : root.copy.get? (root.len / 2 - 1) with _ | lo_e
  · exfalso
    rw [List.get?_eq_none] at hget_lo
    omega
  rcases hget_hi : root.copy.get? (root.len - 1) with _ | hi_e
  · exfalso
    rw [List.get?_eq_none] at hget_hi
    omega
  have hgl : root.copy.getLast? = some hi_e := by
    rw [List.getLast?_eq_get?, hcoplen]
    exact hget_hi
  -- no stale cache entries under the fresh ids
  have hlkLo : db.cache.map.lookup (db.filePages.length + 1) = none := by
    rcases hq : db.cache.map.lookup (db.filePages.length + 1) with _ | w
    · rfl
    · exfalso
      unfold LruCache.has at hlo
      rw [hq] at hlo
      cases hlo
  have hlkHi : db.cache.map.lookup (db.filePages.length + 2) = none := by
    rcases hq : db.cache.map.lookup (db.filePages.length + 2) with _ | w
    · rfl
    · exfalso
      unfold LruCache.has at hhi
      rw [hq] at hhi
      cases hhi
  -- page_mut on lo
  have hhaslo : db1.cache.has (db.filePages.length + 1) = false := by
    unfold LruCache.has
    rw [hm1', hlkLo]
    rfl
  have hlenF1 : (db.filePages
      ++ [Block.create (db.filePages.length + 1) db.pageBytes]).length
      = db.filePages.length + 1 := by
    rw [List.length_append]
    rfl
  have hld_lo : db1.filePages.get? (db.filePages.length + 1 - 1)
      = some (Block.create (db.filePages.length + 1) db.pageBytes) := by
    rw [hfp1']
    rw [show db.filePages.length + 1 - 1 = db.filePages.length from rfl]
    rw [List.get?_append (by rw [hlenF1]; omega)]
    rw [List.get?_append_right (le_refl _), Nat.sub_self]
    rfl
  have hroom_lo : db1.cache.map.length < db1.cache.cap := by
    rw [hm1', hcap1']
    omega
  obtain ⟨db2, hpm2, hm2, hfp2, hd2, hpb2, he2, hcap2⟩ :=
    pageMut_absent hhaslo (by omega) hld_lo hroom_lo
  have hm2' : db2.cache.map
      = assocPut db.cache.map (db.filePages.length + 1)
          (Block.create (db.filePages.length + 1) db.pageBytes) := by
    rw [hm2, hm1']
  -- page_mut on hi, after the lo buffer was overwritten with the filled page
  have hm3 : (db2.setPage (db.filePages.length + 1)
        (fillEntries (Block.create (db.filePages.length + 1) db.pageBytes)
          (root.copy.take (root.len / 2)))).cache.map
      = assocPut (assocPut db.cache.map (db.filePages.length + 1)
            (Block.create (db.filePages.length + 1) db.pageBytes))
          (db.filePages.length + 1)
          (fillEntries (Block.create (db.filePages.length + 1) db.pageBytes)
            (root.copy.take (root.len / 2))) := by
    rw [setPage_map, hm2']
  have hhashi : (db2.setPage (db.filePages.length + 1)
        (fillEntries (Block.create (db.filePages.length + 1) db.pageBytes)
          (root.copy.take (root.len / 2)))).cache.has (db.filePages.length + 2)
      = false := by
    unfold LruCache.has
    rw [hm3]
    rw [assocPut_lookup_ne _ _ _ _ (by omega)]
    rw [assocPut_lookup_ne _ _ _ _ (by omega)]
    rw [hlkHi]
    rfl
  have hld_hi : (db2.setPage (db.filePages.length + 1)
        (fillEntries (Block.create (db.filePages.length + 1) db.pageBytes)
          (root.copy.take (root.len / 2)))).filePages.get? (db.filePages.length + 2 - 1)
      = some (Block.create (db.filePages.length + 2) db.pageBytes) := by
    rw [setPage_filePages, hfp2, hfp1']
    rw [show db.filePages.length + 2 - 1 = db.filePages.length + 1 from rfl]
    rw [List.get?_append_right (by rw [hlenF1])]
    rw [hlenF1, Nat.sub_self]
    rfl
  have hroom_hi : (db2.setPage (db.filePages.length + 1)
        (fillEntries (Block.create (db.filePages.length + 1) db.pageBytes)
          (root.copy.take (root.len / 2)))).cache.map.length
      < (db2.setPage (db.filePages.length + 1)
          (fillEntries (Block.create (db.filePages.length + 1) db.pageBytes)
            (root.copy.take (root.len / 2)))).cache.cap := by
    rw [hm3, setPage_cap, hcap2, hcap1']
    rw [assocPut_length_some _ _ _ _ (assocPut_lookup_self _ _ _)]
    rw [assocPut_length_none _ _ _ hlkLo]
    omega
  obtain ⟨db4, hpm4, hm4, hfp4, hd4, hpb4, he4, hcap4⟩ :=
    pageMut_absent hhashi (by omega) hld_hi hroom_hi
  -- page_mut back on the root
  have hcc5 : ((db4.setPage (db.filePages.length + 2)
        (fillEntries (Block.create (db.filePages.length + 2) db.pageBytes)
          (root.copy.drop (root.len / 2))))).cacheContent ROOT = some root := by
    unfold DB.cacheContent
    rw [setPage_map]
    rw [assocPut_lookup_ne _ _ _ _ (by omega)]
    rw [hm4, hm3]
    rw [assocPut_lookup_ne _ _ _ _ (by omega)]
    rw [assocPut_lookup_ne _ _ _ _ (by omega)]
    rw [assocPut_lookup_ne _ _ _ _ (by omega)]
    exact hroot
  obtain ⟨db6, hpm6, hm6, hfp6, hd6, hpb6, he6⟩ := pageMut_resident hcc5
  -- the separator keys
  have hi1lt : root.len / 2 - 1 < root.len - 1 := by omega
  have hk1 : root.key (root.len / 2 - 1) = lo_e.1 := by
    rw [key_of_copy, hget_lo]
    rfl
  have hk2 : root.key (root.len - 1) = hi_e.1 := by
    rw [key_of_copy, hget_hi]
    rfl
  have hlt12 : keyLt lo_e.1 hi_e.1 := by
    rw [← hk1, ← hk2]
    exact sortedKeysB_spec hsorted _ _ hi1lt (by omega)
  -- the entries behind the two separator keys, for the size bounds
  rcases hE1 : root.entries.get? (root.len / 2 - 1) with _ | E1
  · exfalso
    have hcm : root.copy.get? (root.len / 2 - 1)
        = (root.entries.get? (root.len / 2 - 1)).map
            (fun e => (e.key, e.val, e.page)) := by
      unfold Block.copy
      rw [List.get?_map]
    rw [hget_lo, hE1] at hcm
    cases hcm
  rcases hE2 : root.entries.get? (root.len - 1) with _ | E2
  · exfalso
    have hcm : root.copy.get? (root.len - 1)
        = (root.entries.get? (root.len - 1)).map (fun e => (e.key, e.val, e.page)) := by
      unfold Block.copy
      rw [List.get?_map]
    rw [hget_hi, hE2] at hcm
    cases hcm
  have hfe1 : lo_e = (E1.key, E1.val, E1.page) := by
    have hcm : root.copy.get? (root.len / 2 - 1)
        = (root.entries.get? (root.len / 2 - 1)).map
            (fun e => (e.key, e.val, e.page)) := by
      unfold Block.copy
      rw [List.get?_map]
    rw [hget_lo, hE1] at hcm
    simp only [Option.map_some', Option.some.injEq] at hcm
    exact hcm
  have hfe2 : hi_e = (E2.key, E2.val, E2.page) := by
    have hcm : root.copy.get? (root.len - 1)
        = (root.entries.get? (root.len - 1)).map (fun e => (e.key, e.val, e.page)) := by
      unfold Block.copy
      rw [List.get?_map]
    rw [hget_hi, hE2] at hcm
    simp only [Option.map_some', Option.some.injEq] at hcm
    exact hcm
  have hmem1 : E1 ∈ root.entries.take (root.len / 2) := by
    have hx : (root.entries.take (root.len / 2)).get? (root.len / 2 - 1) = some E1 := by
      rw [List.get?_take (by omega)]
      exact hE1
    exact List.get?_mem hx
  have hmem2 : E2 ∈ root.entries.drop (root.len / 2) := by
    have hx : (root.entries.drop (root.len / 2)).get? (root.len - 1 - root.len / 2)
        = some E2 := by
      rw [List.get?_drop]
      rw [show root.len / 2 + (root.len - 1 - root.len / 2) = root.len - 1 from by omega]
      exact hE2
    exact List.get?_mem hx
  have hsplitTP : totalPayload root.entries
      = totalPayload (root.entries.take (root.len / 2))
        + totalPayload (root.entries.drop (root.len / 2)) := by
    have h := totalPayload_append (root.entries.take (root.len / 2))
      (root.entries.drop (root.len / 2))
    rw [List.take_append_drop] at h
    exact h
  have hp1 := payload_mem_le hmem1
  have hp2 := payload_mem_le hmem2
  have hmul2 : 2 * SLOT ≤ root.len * SLOT := Nat.mul_le_mul_right SLOT hn
  have hlen1e : lo_e.1.length = E1.key.length := by rw [hfe1]
  have hlen2e : hi_e.1.length = E2.key.length := by rw [hfe2]
  have harith : lo_e.1.length + hi_e.1.length + 2 * SLOT + HEADB ≤ root.cap := by
    omega
  -- the root is reset to the two separators
  have hfree0 : (root.clear).free = root.cap - HEADB := rfl
  have hfits1 : (root.clear).fits (lo_e.1.length + ([] : List Nat).length) = true := by
    unfold Block.fits
    rw [decide_eq_true_eq, hfree0]
    have h0 : ([] : List Nat).length = 0 := rfl
    omega
  have hr1 : (root.clear).put_refB lo_e.1 (db.filePages.length + 1)
      = ⟨root.id, root.cap,
          [⟨root.cap - lo_e.1.length, lo_e.1, [], db.filePages.length + 1⟩]⟩ := by
    unfold Block.put_refB Block.put_ref
    rw [put_entry_fresh (fun e he => absurd he (List.not_mem_nil e)) hfits1]
    rfl
  have hfree1 : (⟨root.id, root.cap,
        [⟨root.cap - lo_e.1.length, lo_e.1, [], db.filePages.length + 1⟩]⟩ : Block).free
      = root.cap - lo_e.1.length - (HEADB + 1 * SLOT) := rfl
  have hfits2 : (⟨root.id, root.cap,
        [⟨root.cap - lo_e.1.length, lo_e.1, [], db.filePages.length + 1⟩]⟩ : Block).fits
        (hi_e.1.length + ([] : List Nat).length) = true := by
    unfold Block.fits
    rw [decide_eq_true_eq, hfree1]
    have h0 : ([] : List Nat).length = 0 := rfl
    omega
  have hfresh2 : ∀ e ∈ (⟨root.id, root.cap,
        [⟨root.cap - lo_e.1.length, lo_e.1, [], db.filePages.length + 1⟩]⟩ : Block).entries,
      e.key ≠ hi_e.1 := by
    intro e he
    rw [List.mem_singleton.mp he]
    exact keyLt_ne hlt12
  have hceil2 : (⟨root.id, root.cap,
        [⟨root.cap - lo_e.1.length, lo_e.1, [], db.filePages.length + 1⟩]⟩ : Block).ceil
        hi_e.1 = none := by
    apply ceil_none_of_all_lt
    intro e he
    rw [List.mem_singleton.mp he]
    exact hlt12
  have hr2 : ((root.clear).put_refB lo_e.1 (db.filePages.length + 1)).put_refB
        hi_e.1 (db.filePages.length + 2)
      = ⟨root.id, root.cap,
          [⟨root.cap - lo_e.1.length, lo_e.1, [], db.filePages.length + 1⟩,
           ⟨root.cap - lo_e.1.length - hi_e.1.length, hi_e.1, [],
             db.filePages.length + 2⟩]⟩ := by
    rw [hr1]
    unfold Block.put_refB Block.put_ref
    rw [put_entry_fresh hfresh2 hfits2]
    simp only [Option.map_some', Option.getD_some]
    rw [hceil2]
    rfl
  -- the filled halves
  have hpairCopy : List.Pairwise (fun s t => keyLt s.1 t.1) root.copy := by
    rw [List.pairwise_iff_get]
    intro i j hij
    have h1 : (root.copy.get i).1 = root.key i.1 := by
      rw [key_of_copy, List.get?_eq_get i.2]
      rfl
    have h2 : (root.copy.get j).1 = root.key j.1 := by
      rw [key_of_copy, List.get?_eq_get j.2]
      rfl
    rw [h1, h2]
    exact sortedKeysB_spec hsorted i.1 j.1 hij (by rw [← hcoplen]; exact j.2)
  have hwfCopy : ∀ t ∈ root.copy, t.2.2 ≠ 0 → t.2.1 = [] := by
    intro t ht hp
    have ht2 : t ∈ root.entries.map (fun e => (e.key, e.val, e.page)) := ht
    rcases List.mem_map.mp ht2 with ⟨e, he, hfe⟩
    rw [← hfe] at hp ⊢
    exact hrefs e he hp
  have hTPsplit : tripPayload (root.copy.take (root.len / 2))
        + tripPayload (root.copy.drop (root.len / 2))
      = totalPayload root.entries := by
    have h := tripPayload_append (root.copy.take (root.len / 2))
      (root.copy.drop (root.len / 2))
    rw [List.take_append_drop, tripPayload_copy] at h
    exact h.symm
  have hlenTake : (root.copy.take (root.len / 2)).length = root.len / 2 := by
    rw [List.length_take, hcoplen]
    exact min_eq_left (by omega)
  have hlenDrop : (root.copy.drop (root.len / 2)).length = root.len - root.len / 2 := by
    rw [List.length_drop, hcoplen]
  have hfillLo := fillEntries_spec (root.copy.take (root.len / 2))
    (Block.create (db.filePages.length + 1) db.pageBytes)
    (Or.inl rfl)
    (List.Pairwise.sublist (List.take_sublist _ _) hpairCopy)
    (fun e he => absurd he (List.not_mem_nil e))
    (fun t ht => hwfCopy t ((List.take_sublist _ _).subset ht))
    (by
      rw [hlenTake]
      have hz1 : (Block.create (db.filePages.length + 1) db.pageBytes).len * SLOT = 0 := rfl
      have hz2 : totalPayload (Block.create (db.filePages.length + 1) db.pageBytes).entries
          = 0 := rfl
      have hz3 : (Block.create (db.filePages.length + 1) db.pageBytes).cap
          = db.pageBytes := rfl
      have hm1t : root.len / 2 * SLOT ≤ root.len * SLOT :=
        Nat.mul_le_mul_right SLOT (Nat.div_le_self _ _)
      omega)
  have hfillHi := fillEntries_spec (root.copy.drop (root.len / 2))
    (Block.create (db.filePages.length + 2) db.pageBytes)
    (Or.inl rfl)
    (List.Pairwise.sublist (List.drop_sublist _ _) hpairCopy)
    (fun e he => absurd he (List.not_mem_nil e))
    (fun t ht => hwfCopy t ((List.drop_sublist _ _).subset ht))
    (by
      rw [hlenDrop]
      have hz1 : (Block.create (db.filePages.length + 2) db.pageBytes).len * SLOT = 0 := rfl
      have hz2 : totalPayload (Block.create (db.filePages.length + 2) db.pageBytes).entries
          = 0 := rfl
      have hz3 : (Block.create (db.filePages.length + 2) db.pageBytes).cap
          = db.pageBytes := rfl
      have hm1t : (root.len - root.len / 2) * SLOT ≤ root.len * SLOT :=
        Nat.mul_le_mul_right SLOT (by omega)
      omega)
  have hloCopy : (fillEntries (Block.create (db.filePages.length + 1) db.pageBytes)
        (root.copy.take (root.len / 2))).copy = root.copy.take (root.len / 2) :=
    hfillLo.1.trans rfl
  have hhiCopy : (fillEntries (Block.create (db.filePages.length + 2) db.pageBytes)
        (root.copy.drop (root.len / 2))).copy = root.copy.drop (root.len / 2) :=
    hfillHi.1.trans rfl
  -- max keys of the filled halves
  have hmaxlo : (fillEntries (Block.create (db.filePages.length + 1) db.pageBytes)
        (root.copy.take (root.len / 2))).maxKey = lo_e.1 := by
    have hlenB : (fillEntries (Block.create (db.filePages.length + 1) db.pageBytes)
          (root.copy.take (root.len / 2))).len = root.len / 2 := by
      have h1 : (fillEntries (Block.create (db.filePages.length + 1) db.pageBytes)
            (root.copy.take (root.len / 2))).copy.length
          = (fillEntries (Block.create (db.filePages.length + 1) db.pageBytes)
              (root.copy.take (root.len / 2))).len := by
        simp [Block.copy, Block.len]
      rw [← h1, hloCopy, hlenTake]
    unfold Block.maxKey
    rw [hlenB, key_of_copy, hloCopy]
    rw [List.get?_take (by omega)]
    rw [hget_lo]
    rfl
  have hmaxhi : (fillEntries (Block.create (db.filePages.length + 2) db.pageBytes)
        (root.copy.drop (root.len / 2))).maxKey = hi_e.1 := by
    have hlenB : (fillEntries (Block.create (db.filePages.length + 2) db.pageBytes)
          (root.copy.drop (root.len / 2))).len = root.len - root.len / 2 := by
      have h1 : (fillEntries (Block.create (db.filePages.length + 2) db.pageBytes)
            (root.copy.drop (root.len / 2))).copy.length
          = (fillEntries (Block.create (db.filePages.length + 2) db.pageBytes)
              (root.copy.drop (root.len / 2))).len := by
        simp [Block.copy, Block.len]
      rw [← h1, hhiCopy, hlenDrop]
    unfold Block.maxKey
    rw [hlenB, key_of_copy, hhiCopy, List.get?_drop]
    rw [show root.len / 2 + (root.len - root.len / 2 - 1) = root.len - 1 from by omega]
    rw [hget_hi]
    rfl
  -- assemble
  refine ⟨db6.setPage ROOT (((root.clear).put_refB lo_e.1 (db.filePages.length + 1)).put_refB
        hi_e.1 (db.filePages.length + 2)),
      fillEntries (Block.create (db.filePages.length + 1) db.pageBytes)
        (root.copy.take (root.len / 2)),
      fillEntries (Block.create (db.filePages.length + 2) db.pageBytes)
        (root.copy.drop (root.len / 2)),
      ((root.clear).put_refB lo_e.1 (db.filePages.length + 1)).put_refB
        hi_e.1 (db.filePages.length + 2),
      ?_, ?_, ?_, ?_, ?_, ?_, hloCopy, hhiCopy, ?_, ?_⟩
  · unfold DB.split
    rw [if_pos rfl]
    rw [hn1]
    dsimp only
    rw [hn2]
    dsimp only
    rw [hpg]
    dsimp only
    rw [if_neg hhalf]
    rw [hget_lo, hgl]
    dsimp only
    rw [hpm2]
    dsimp only
    rw [hpm4]
    dsimp only
    rw [hpm6]
  · unfold DB.cacheContent
    rw [setPage_map]
    rw [assocPut_lookup_ne _ _ _ _ (by omega)]
    rw [hm6, setPage_map]
    rw [assocPut_lookup_ne _ _ _ _ (by omega)]
    rw [hm4, hm3]
    rw [assocPut_lookup_ne _ _ _ _ (by omega)]
    exact assocPut_lookup_self _ _ _
  · unfold DB.cacheContent
    rw [setPage_map]
    rw [assocPut_lookup_ne _ _ _ _ (by omega)]
    rw [hm6, setPage_map]
    exact assocPut_lookup_self _ _ _
  · unfold DB.cacheContent
    rw [setPage_map]
    exact assocPut_lookup_self _ _ _
  · exact hfillLo.2.1
  · exact hfillHi.2.1
  · rw [hr2]
    exact hrid
  · rw [hr2, hmaxlo, hmaxhi]
    rfl

/-- Witness for C7: splitting the two-entry root of `dbW` produces pages 2
and 3 holding one entry each and the root holding the two separators. -/
theorem C7_root_split_witness :
    ∃ dbF loB hiB rootF,
      dbW.split ROOT 1 = some (.ok (), dbF) ∧
      dbF.cacheContent (dbW.filePages.length + 1) = some loB ∧
      dbF.cacheContent (dbW.filePages.length + 2) = some hiB ∧
      dbF.cacheContent ROOT = some rootF ∧
      loB.id = dbW.filePages.length + 1 ∧
      hiB.id = dbW.filePages.length + 2 ∧
      loB.copy = rootW.copy.take (rootW.len / 2) ∧
      hiB.copy = rootW.copy.drop (rootW.len / 2) ∧
      rootF.id = ROOT ∧
      rootF.copy = [(loB.maxKey, [], dbW.filePages.length + 1),
                    (hiB.maxKey, [], dbW.filePages.length + 2)] :=
  C7_root_split dbW 1 rootW rfl rfl rfl rfl (by decide) (by decide) (by decide)
    (by decide) (by decide) (by decide) (by decide) (by decide)

end Yak
